import Mathlib

/-!
Shallow embedding of the evergreen task-dependency expansion and
build-generation engine (package `model`, file `part_003`, together with the
UI entry point `ui/patch.go`).

Go slices are modelled as `List`, Go maps as association lists in first
insertion order, machine strings as `String`.  Stateful code is embedded by
explicit state passing: every fallible operation returns the store (and the
patch) as it was left behind, also on error, mirroring Go's mutable world
where writes that happened before an error are not rolled back.

Code of the repository that is not under `src/` (the `patch`, `version` and
`build` packages, `CreateBuildFromVersion`, `NewPatchTaskIdTable`,
`AddTasksToBuild` and the `dependencyIncluder`) is modelled from the spec;
each such definition carries a doc comment saying so.
-/

namespace Evergreen

/-- A (variant, task name) pair, the universal unit of one task instance in
one variant (spec section 3; `model.TVPair`). -/
structure TVPair where
  variant : String
  taskName : String
deriving DecidableEq, Repr

/-- A declared dependency edge: the required task's name, optionally scoped
to a different variant (empty string means the dependent task's own
variant).  Spec section 3, `TaskRef`. -/
structure TaskRef where
  name : String
  variant : String
deriving DecidableEq, Repr

/-- A project-level task definition with its declared dependencies
(spec section 3, `TaskDef`). -/
structure TaskDef where
  name : String
  patchable : Bool
  dependsOn : List TaskRef
deriving DecidableEq, Repr

/-- A build variant: a named configuration listing the names of the tasks
that may run in it (spec section 3, `BuildVariant`). -/
structure BuildVariant where
  name : String
  displayName : String
  taskNames : List String
deriving DecidableEq, Repr

/-- An immutable-per-version project snapshot (spec section 3, `Project`). -/
structure Project where
  buildVariants : List BuildVariant
  tasks : List TaskDef
deriving DecidableEq, Repr

/-- One variant's requested task list, the new request format
(`patch.VariantTasks`). -/
structure VariantTasks where
  variant : String
  tasks : List String
deriving DecidableEq, Repr

/-- A version's per-build status entry (`version.BuildStatus`). -/
structure BuildStatus where
  buildVariant : String
  activated : Bool
  buildId : String
deriving DecidableEq, Repr

/-- One schedulable unit of work (`version.Version`).  The wall-clock
`CreateTime` field of the source record is outside the embedding; the
remaining fields are carried as in the source. -/
structure Version where
  id : String
  identifier : String
  revision : String
  author : String
  authorEmail : String
  message : String
  buildIds : List String
  buildVariants : List BuildStatus
  status : String
deriving DecidableEq, Repr

/-- One variant's worth of work within a version (`build.Build`). -/
structure Build where
  id : String
  version : String
  buildVariant : String
  taskIds : List String
  activated : Bool
deriving DecidableEq, Repr

/-- One unit of executable work (`model.Task`). -/
structure Task where
  id : String
  buildId : String
  version : String
  buildVariant : String
  displayName : String
  dependsOn : List String
  activated : Bool
  status : String
deriving DecidableEq, Repr

/-- A pending or finalized change request (`patch.Patch`).  The
`PatchedConfig` field holds the already-parsed project (project-definition
parsing is out of scope per spec section 1), and the raw diff contents are
outside the embedding. -/
structure Patch where
  id : String
  project : String
  githash : String
  description : String
  tasks : List String
  buildVariants : List String
  variantsTasks : List VariantTasks
  version : String
  activated : Bool
  patchedConfig : Project
deriving DecidableEq, Repr

/-- The persistent store's Version/Build/Task collections, each modelled as
the list of documents in insertion order (spec section 6). -/
structure Store where
  versions : List Version
  builds : List Build
  tasks : List Task
deriving DecidableEq, Repr

/-- The error kinds of the engine (spec section 7). -/
inductive EngineError where
  | unresolvedDependency : TVPair → EngineError
  | unknownVariant : String → EngineError
  | unknownTask : String → String → EngineError
  | projectRefNotFound : EngineError
  | commitFetchFailed : EngineError
deriving DecidableEq, Repr

/-- `VariantTasksToTVPairs` (part_003 lines 107-115): flattens the
per-variant task lists into the universal pair set. -/
def VariantTasksToTVPairs (vts : List VariantTasks) : List TVPair :=
  vts.flatMap (fun vt => vt.tasks.map (fun t => TVPair.mk vt.variant t))

/-- Association-list lookup for the Go map `vtMap` in
`TVPairsToVariantTasks`; a missing key yields the zero value, as Go map
indexing does. -/
def vtMapGet (m : List (String × VariantTasks)) (k : String) : VariantTasks :=
  match m.find? (fun e => e.1 == k) with
  | some e => e.2
  | none => VariantTasks.mk "" []

/-- Association-list assignment for the Go map `vtMap`: an existing key is
updated in place, a new key is appended (insertion order stands in for Go's
unspecified map iteration order). -/
def vtMapSet (m : List (String × VariantTasks)) (k : String) (v : VariantTasks) :
    List (String × VariantTasks) :=
  if m.any (fun e => e.1 == k) then
    m.map (fun e => if e.1 == k then (k, v) else e)
  else
    m ++ [(k, v)]

/-- One iteration of the map-building loop of `TVPairsToVariantTasks`
(part_003 lines 119-124): read the entry for the pair's variant (zero value
when absent), append the task name, store it back. -/
def vtMapStep (m : List (String × VariantTasks)) (pair : TVPair) :
    List (String × VariantTasks) :=
  vtMapSet m pair.variant
    (VariantTasks.mk pair.variant ((vtMapGet m pair.variant).tasks ++ [pair.taskName]))

/-- The map-building loop of `TVPairsToVariantTasks` (part_003 lines
118-124). -/
def vtMapOf (pairs : List TVPair) : List (String × VariantTasks) :=
  pairs.foldl vtMapStep []

/-- `TVPairsToVariantTasks` (part_003 lines 117-130).  Note the source
allocates `vts := make([]patch.VariantTasks, len(vtMap))` — a slice already
holding `len(vtMap)` zero values — and then appends the map entries to it,
so the zero-valued entries stay at the front. -/
def TVPairsToVariantTasks (pairs : List TVPair) : List VariantTasks :=
  List.replicate (vtMapOf pairs).length (VariantTasks.mk "" []) ++
    (vtMapOf pairs).map (fun e => e.2)

/-- The JSON body of a schedule request (`ui/patch.go` lines 14-19):
explicit per-variant task lists (new format) next to the legacy flat
variant and task lists. -/
structure PatchVariantsTasksRequest where
  variantsTasks : List VariantTasks
  variants : List String
  tasks : List String
  description : String
deriving DecidableEq, Repr

/-- The pair-set selection of `schedulePatch` (ui/patch.go lines 112-121):
the explicit `VariantsTasks` form wins when non-empty, otherwise the
`Variants × Tasks` cross product is used. -/
def schedulePatchPairs (req : PatchVariantsTasksRequest) : List TVPair :=
  if req.variantsTasks.length > 0 then
    VariantTasksToTVPairs req.variantsTasks
  else
    req.variants.flatMap (fun v => req.tasks.map (fun t => TVPair.mk v t))

/-- Which branch `schedulePatch` takes at ui/patch.go line 131: a patch with
a non-empty `Version` goes down the add-new-builds-and-tasks (extend) path,
a pending patch down the finalize path. -/
inductive ScheduleAction where
  | extend : ScheduleAction
  | finalize : ScheduleAction
deriving DecidableEq, Repr

/-- The routing decision of `schedulePatch` (ui/patch.go line 131). -/
def schedulePatchBranch (p : Patch) : ScheduleAction :=
  if p.version ≠ "" then ScheduleAction.extend else ScheduleAction.finalize

/-- Resolve a declared dependency edge to a concrete pair: the ref's
explicit variant, or the dependent pair's own variant when unset
(spec section 4.2). -/
def TaskRef.resolvePair (r : TaskRef) (ownVariant : String) : TVPair :=
  TVPair.mk (if r.variant = "" then ownVariant else r.variant) r.name

/-- Lookup of a `BuildVariant` by name (spec section 4.1). -/
def Project.findVariant (P : Project) (n : String) : Option BuildVariant :=
  P.buildVariants.find? (fun bv => bv.name == n)

/-- Lookup of a `TaskDef` by name (spec section 4.1). -/
def Project.findTaskDef (P : Project) (n : String) : Option TaskDef :=
  P.tasks.find? (fun t => t.name == n)

/-- The concrete pairs a given pair depends on: the `DependsOn` refs of its
`TaskDef`, each resolved against the pair's own variant. -/
def Project.depPairs (P : Project) (p : TVPair) : List TVPair :=
  match P.findTaskDef p.taskName with
  | none => []
  | some td => td.dependsOn.map (fun r => r.resolvePair p.variant)

/-- Whether a pair names a variant of the project and a task present in that
variant's task list. -/
def Project.pairInProject (P : Project) (q : TVPair) : Bool :=
  match P.findVariant q.variant with
  | none => false
  | some bv => bv.taskNames.contains q.taskName

/-- Whether every dependency of a pair resolves to a pair that exists in the
project (spec section 4.2's resolvability condition). -/
def Project.depsResolvable (P : Project) (p : TVPair) : Bool :=
  (P.depPairs p).all (fun q => P.pairInProject q)

/-- Append to `acc` the elements of `xs` not already present, keeping
insertion order (value-level deduplication of TVPair sets, spec
section 3). -/
def addNew {α : Type} [DecidableEq α] (acc xs : List α) : List α :=
  xs.foldl (fun a x => if x ∈ a then a else a ++ [x]) acc

/-- One round of the fixed-point traversal: add every dependency of every
pair gathered so far. -/
def Project.round (P : Project) (acc : List TVPair) : List TVPair :=
  addNew acc (acc.flatMap (fun p => P.depPairs p))

/-- Whether the gathered set is closed under the requires relation. -/
def Project.saturated (P : Project) (acc : List TVPair) : Bool :=
  (acc.flatMap (fun p => P.depPairs p)).all (fun q => decide (q ∈ acc))

/-- The work-list iteration of the closure (spec section 4.2): expand until
no round adds a pair; the fuel argument only bounds the iteration and is
chosen large enough below that it never runs out. -/
def includeAux (P : Project) : Nat → List TVPair → List TVPair
  | 0, acc => acc
  | n + 1, acc => if P.saturated acc then acc else includeAux P n (P.round acc)

/-- The variants named explicitly by some dependency ref of the project. -/
def Project.refVariants (P : Project) : List String :=
  P.tasks.flatMap (fun td =>
    (td.dependsOn.filter (fun r => r.variant ≠ "")).map (fun r => r.variant))

/-- The task names named by some dependency ref of the project. -/
def Project.refNames (P : Project) : List String :=
  P.tasks.flatMap (fun td => td.dependsOn.map (fun r => r.name))

/-- A finite universe containing every pair the traversal can ever reach
from `seed`: the seeds themselves plus every (seed-or-ref variant, ref
name) combination. -/
def closureUniverse (P : Project) (seed : List TVPair) : List TVPair :=
  seed ++ (seed.map (fun p => p.variant) ++ P.refVariants).flatMap
    (fun v => P.refNames.map (fun t => TVPair.mk v t))

/-- Enough fuel to saturate: one round per universe element plus one. -/
def includeFuel (P : Project) (seed : List TVPair) : Nat :=
  (closureUniverse P seed).length + 1

/-- Modelled from the spec: the body of `dependencyIncluder.Include` is not
under src (only its caller `IncludePatchDependencies`, part_003 lines
238-241, is).  Per spec section 4.2 it is a fixed-point work-list traversal
of the requires relation starting from the deduplicated seed, and a
dependency referencing a task name absent from the target variant's task
list, or a variant absent from the project, surfaces the
unresolved-dependency error of spec section 7 instead of being silently
dropped. -/
def dependencyIncluderInclude (P : Project) (seed : List TVPair) :
    Except EngineError (List TVPair) :=
  match (includeAux P (includeFuel P seed) (addNew [] seed)).find?
      (fun p => !(P.depsResolvable p)) with
  | some p => Except.error (EngineError.unresolvedDependency p)
  | none => Except.ok (includeAux P (includeFuel P seed) (addNew [] seed))

/-- `IncludePatchDependencies` (part_003 lines 238-241) delegates to the
dependency includer. -/
def IncludePatchDependencies (P : Project) (tvpairs : List TVPair) :
    Except EngineError (List TVPair) :=
  dependencyIncluderInclude P tvpairs

/-- The pairs reachable from a seed set by following declared, resolved
dependency edges (the requires relation of spec section 4.2). -/
inductive Reachable (P : Project) (S : List TVPair) : TVPair → Prop where
  | seed {p : TVPair} : p ∈ S → Reachable P S p
  | dep {p q : TVPair} : Reachable P S p → q ∈ P.depPairs p → Reachable P S q

/-- Modelled from the spec: the Task-ID construction rule of spec
section 4.3 — a deterministic composition of the version id, the variant
name and the task name (the allocator implementation is not under src). -/
def taskIdFor (versionId variant task : String) : String :=
  versionId ++ "_" ++ variant ++ "_" ++ task

/-- Modelled from the spec: the Build-id construction follows the same
deterministic composition rule over version id and variant name. -/
def buildIdFor (versionId variant : String) : String :=
  versionId ++ "_" ++ variant

/-- A Task-ID table: the finite mapping (variant, task name) → task id of
spec section 4.3, represented as an association list over its domain. -/
def TaskIdTable : Type := List (TVPair × String)

/-- Table lookup; a pair outside the table's domain yields `none`. -/
def tableLookup (tt : TaskIdTable) (q : TVPair) : Option String :=
  match List.find? (fun e => e.1 == q) tt with
  | some e => some e.2
  | none => none

/-- Build the table mapping each listed pair to its deterministic id. -/
def tableFor (versionId : String) (prs : List TVPair) : TaskIdTable :=
  prs.map (fun q => (q, taskIdFor versionId q.variant q.taskName))

/-- The variant/task pairs a patch already knows about, in both request
formats: the explicit `VariantsTasks` pairs together with the legacy
`BuildVariants × Tasks` cross product. -/
def patchKnownPairs (p : Patch) : List TVPair :=
  VariantTasksToTVPairs p.variantsTasks ++
    p.buildVariants.flatMap (fun v => p.tasks.map (fun t => TVPair.mk v t))

/-- Modelled from the spec: `NewPatchTaskIdTable` is not under src (only its
call sites, part_003 lines 197 and 372, are).  Per spec section 4.3 it
produces, from the project, the version and the patch's already-known
variant/task subset, a mapping covering every pair that will be
materialized for this version, each id a deterministic composition of
version id, variant name and task name. -/
def NewPatchTaskIdTable (_project : Project) (v : Version) (p : Patch) : TaskIdTable :=
  tableFor v.id (patchKnownPairs p)

/-- Resolve a task's declared dependency refs through the id table
(spec section 4.4); a ref outside the table's domain is rejected at resolve
time with an unresolved-dependency error. -/
def resolveDepIds (tt : TaskIdTable) (ownVariant : String) :
    List TaskRef → Except EngineError (List String)
  | [] => Except.ok []
  | r :: rs =>
    match tableLookup tt (r.resolvePair ownVariant) with
    | none => Except.error (EngineError.unresolvedDependency (r.resolvePair ownVariant))
    | some d =>
      match resolveDepIds tt ownVariant rs with
      | Except.error e => Except.error e
      | Except.ok ds => Except.ok (d :: ds)

/-- Modelled from the spec: construction of one Task record inside the
Build Materializer (spec section 4.4): its id comes from the id table, its
`DependsOn` from resolving its `TaskDef`'s refs through the table, its
`Activated` is the caller-supplied flag and its initial status is the
not-yet-started state. -/
def mkTask (project : Project) (v : Version) (tt : TaskIdTable)
    (buildId variant : String) (activated : Bool) (taskName : String) :
    Except EngineError Task :=
  match tableLookup tt (TVPair.mk variant taskName) with
  | none => Except.error (EngineError.unknownTask variant taskName)
  | some tid =>
    match resolveDepIds tt variant
        (match project.findTaskDef taskName with
         | none => []
         | some td => td.dependsOn) with
    | Except.error e => Except.error e
    | Except.ok ds =>
      Except.ok (Task.mk tid buildId v.id variant taskName ds activated "undispatched")

/-- Construct the Task records for all task names of one build. -/
def mkTasks (project : Project) (v : Version) (tt : TaskIdTable)
    (buildId variant : String) (activated : Bool) :
    List String → Except EngineError (List Task)
  | [] => Except.ok []
  | t :: ts =>
    match mkTask project v tt buildId variant activated t with
    | Except.error e => Except.error e
    | Except.ok tk =>
      match mkTasks project v tt buildId variant activated ts with
      | Except.error e => Except.error e
      | Except.ok tks => Except.ok (tk :: tks)

/-- Single-document insert of a Build (store op of spec section 6). -/
def Store.insertBuild (st : Store) (b : Build) : Store :=
  Store.mk st.versions (st.builds ++ [b]) st.tasks

/-- Single-document insert of Task records (store op of spec section 6). -/
def Store.insertTasks (st : Store) (ts : List Task) : Store :=
  Store.mk st.versions st.builds (st.tasks ++ ts)

/-- Single-document insert of a Version (store op of spec section 6). -/
def Store.insertVersion (st : Store) (v : Version) : Store :=
  Store.mk (st.versions ++ [v]) st.builds st.tasks

/-- `UpdateBuildAppendTasks` (store op of spec section 6): push the given
task ids onto the `TaskIds` of every build document with the given id. -/
def Store.pushTasksToBuild (st : Store) (bid : String) (tids : List String) : Store :=
  Store.mk st.versions
    (st.builds.map (fun b =>
      if b.id == bid then
        Build.mk b.id b.version b.buildVariant (b.taskIds ++ tids) b.activated
      else b))
    st.tasks

/-- `UpdateVersionAppendBuilds` (part_003 lines 218-226): push the given
build ids and status entries onto the version document with the given
id. -/
def Store.pushBuildsToVersion (st : Store) (vid : String) (bids : List String)
    (bss : List BuildStatus) : Store :=
  Store.mk
    (st.versions.map (fun v =>
      if v.id == vid then
        Version.mk v.id v.identifier v.revision v.author v.authorEmail v.message
          (v.buildIds ++ bids) (v.buildVariants ++ bss) v.status
      else v))
    st.builds st.tasks

/-- Modelled from the spec: `CreateBuildFromVersion` is not under src (only
its call sites, part_003 lines 202 and 374, are).  Per spec section 4.4 it
validates the variant against the project and each task name against that
variant's task list, constructs one Build owning one Task per name with
dependencies resolved through the id table, and persists the Build and its
Tasks as a single logical unit, returning the new build's id.  Task
construction (including dependency resolution) precedes the inserts, so a
resolve-time rejection leaves the store untouched. -/
def CreateBuildFromVersion (project : Project) (v : Version) (tt : TaskIdTable)
    (buildVariant : String) (activated : Bool) (taskNames : List String)
    (st : Store) : Store × Except EngineError String :=
  match project.findVariant buildVariant with
  | none => (st, Except.error (EngineError.unknownVariant buildVariant))
  | some bv =>
    if taskNames.all (fun t => bv.taskNames.contains t) then
      match mkTasks project v tt (buildIdFor v.id buildVariant) buildVariant
          activated taskNames with
      | Except.error e => (st, Except.error e)
      | Except.ok ts =>
        let b := Build.mk (buildIdFor v.id buildVariant) v.id buildVariant
          (ts.map (fun t => t.id)) activated
        ((st.insertBuild b).insertTasks ts, Except.ok b.id)
    else (st, Except.error (EngineError.unknownTask buildVariant ""))

/-- Modelled from the spec: `patch.Patch.AddTasks` (patch package not under
src) records the requested task names on the patch, growing `Tasks` to the
union (spec section 4.5: the ever-growing record of what has been
requested). -/
def Patch.AddTasks (p : Patch) (ts : List String) : Patch :=
  Patch.mk p.id p.project p.githash p.description (addNew p.tasks ts)
    p.buildVariants p.variantsTasks p.version p.activated p.patchedConfig

/-- Modelled from the spec: `patch.Patch.AddBuildVariants` (patch package
not under src) grows `BuildVariants` to the union. -/
def Patch.AddBuildVariants (p : Patch) (vs : List String) : Patch :=
  Patch.mk p.id p.project p.githash p.description p.tasks
    (addNew p.buildVariants vs) p.variantsTasks p.version p.activated p.patchedConfig

/-- Modelled from the spec: `patch.Patch.SetActivated` (patch package not
under src) marks the patch activated and links it to the version — the
"finally set patch.Version to that Version's id" step of spec
section 4.5. -/
def Patch.SetActivated (p : Patch) (versionId : String) : Patch :=
  Patch.mk p.id p.project p.githash p.description p.tasks
    p.buildVariants p.variantsTasks versionId true p.patchedConfig

/-- The project-ref document looked up by `FindOneProjectRef`. -/
structure ProjectRef where
  owner : String
  repo : String
deriving DecidableEq, Repr

/-- The commit event fetched from the github collaborator. -/
structure GitCommit where
  author : String
  authorEmail : String
  message : String
deriving DecidableEq, Repr

/-- The external collaborators `FinalizePatch` consults: the project-ref
store lookup and the github commit fetch (`none` models both a fetch error
and a missing commit, which the source treats alike by aborting). -/
structure Env where
  projectRef : Option ProjectRef
  gitCommit : Option GitCommit
deriving DecidableEq, Repr

/-- The per-variant build-creation loop of `FinalizePatch` (part_003 lines
373-386): for each entry of `patch.VariantsTasks`, create a build with
`activated = true` and append its id and status entry to the in-memory
version; a failure aborts the loop, leaving earlier builds persisted. -/
def finalizeBuilds (project : Project) (tt : TaskIdTable) :
    List VariantTasks → Version → Store → Store × Except EngineError Version
  | [], pv, st => (st, Except.ok pv)
  | vt :: rest, pv, st =>
    match CreateBuildFromVersion project pv tt vt.variant true vt.tasks st with
    | (st', Except.error e) => (st', Except.error e)
    | (st', Except.ok buildId) =>
      finalizeBuilds project tt rest
        (Version.mk pv.id pv.identifier pv.revision pv.author pv.authorEmail
          pv.message (pv.buildIds ++ [buildId])
          (pv.buildVariants ++ [BuildStatus.mk vt.variant true buildId])
          pv.status)
        st'

/-- `FinalizePatch` (part_003 lines 331-395): unmarshal the patched config
(modelled as reading the already-parsed `patchedConfig`), look up the
project ref, fetch the commit, build the new Version record with the
deterministic id `p.Id ++ "_0"`, build the Task-ID table once, create one
activated build per `VariantsTasks` entry, insert the version and link the
patch via `SetActivated`.  The source performs no check of `p.Version`. -/
def FinalizePatch (p : Patch) (env : Env) (st : Store) :
    Store × Except EngineError (Version × Patch) :=
  let project := p.patchedConfig
  match env.projectRef with
  | none => (st, Except.error EngineError.projectRefNotFound)
  | some _ =>
    match env.gitCommit with
    | none => (st, Except.error EngineError.commitFetchFailed)
    | some gc =>
      let pv0 := Version.mk (p.id ++ "_0") p.project p.githash gc.author
        gc.authorEmail gc.message [] [] "created"
      let tt := NewPatchTaskIdTable project pv0 p
      match finalizeBuilds project tt p.variantsTasks pv0 st with
      | (st', Except.error e) => (st', Except.error e)
      | (st', Except.ok pv) =>
        (st'.insertVersion pv, Except.ok (pv, p.SetActivated pv.id))

/-- The pairs of the already-materialized tasks of a version, read back from
the store's task records. -/
def versionPairs (st : Store) (vid : String) : List TVPair :=
  (st.tasks.filter (fun t => t.version == vid)).map
    (fun t => TVPair.mk t.buildVariant t.displayName)

/-- Modelled from the spec: `AddTasksToBuild` is not under src (only its
call site, part_003 line 163, is).  Per spec section 4.5 it extends an
existing build in place: the task names applicable to the build's variant
get Task records created with section 4.4's per-task logic (no new Build),
their ids appended to the build's `TaskIds`; the id table is recomputed
over the union of the previously-finalized pairs (read from the store) and
the new pairs, so a new task's dependency can resolve to an
already-existing task's id. -/
def AddTasksToBuild (b : Build) (project : Project) (v : Version)
    (taskNames : List String) (st : Store) : Store × Except EngineError Build :=
  match project.findVariant b.buildVariant with
  | none => (st, Except.error (EngineError.unknownVariant b.buildVariant))
  | some bv =>
    let applicable := taskNames.filter (fun t => bv.taskNames.contains t)
    let tt := tableFor v.id
      (versionPairs st v.id ++ applicable.map (fun t => TVPair.mk b.buildVariant t))
    match mkTasks project v tt b.id b.buildVariant b.activated applicable with
    | Except.error e => (st, Except.error e)
    | Except.ok ts =>
      let st' := (st.pushTasksToBuild b.id (ts.map (fun t => t.id))).insertTasks ts
      (st', Except.ok (Build.mk b.id b.version b.buildVariant
        (b.taskIds ++ ts.map (fun t => t.id)) b.activated))

/-- The per-build loop of `AddNewTasksForPatch` (part_003 lines 162-166):
extend each build of the version with the new tasks, aborting on the first
failure (earlier extensions stay persisted). -/
def addTasksLoop (project : Project) (v : Version) (newTasks : List String) :
    List Build → Store → Store × Except EngineError Unit
  | [], st => (st, Except.ok ())
  | b :: bs, st =>
    match AddTasksToBuild b project v newTasks st with
    | (st', Except.error e) => (st', Except.error e)
    | (st', Except.ok _) => addTasksLoop project v newTasks bs st'

/-- `AddNewTasksForPatch` (part_003 lines 140-169): compute `newTasks` as
the requested names not already in `p.Tasks`, record the request on the
patch (this write happens before any task creation), then — when `newTasks`
is non-empty — fetch the version's builds and extend each one. -/
def AddNewTasksForPatch (p : Patch) (patchVersion : Version) (project : Project)
    (taskNames : List String) (st : Store) :
    Patch × Store × Except EngineError Unit :=
  let newTasks := taskNames.filter (fun t => !(p.tasks.contains t))
  let p' := p.AddTasks taskNames
  if newTasks.length > 0 then
    let builds := st.builds.filter (fun b => patchVersion.buildIds.contains b.id)
    match addTasksLoop project patchVersion newTasks builds st with
    | (st', r) => (p', st', r)
  else (p', st, Except.ok ())

/-- The per-variant loop of `AddNewBuildsForPatch` (part_003 lines 198-216):
create a build for each newly added variant with the patch's task list,
collecting the new build ids and status entries and appending the ids to
the in-memory version; a failure aborts the loop before the version
document is updated. -/
def addBuildsLoop (project : Project) (tt : TaskIdTable) (activated : Bool)
    (tasks : List String) :
    List String → Version → List String → List BuildStatus → Store →
    Store × Except EngineError (Version × List String × List BuildStatus)
  | [], pv, bids, bss, st => (st, Except.ok (pv, bids, bss))
  | bvName :: rest, pv, bids, bss, st =>
    match CreateBuildFromVersion project pv tt bvName activated tasks st with
    | (st', Except.error e) => (st', Except.error e)
    | (st', Except.ok buildId) =>
      addBuildsLoop project tt activated tasks rest
        (Version.mk pv.id pv.identifier pv.revision pv.author pv.authorEmail
          pv.message (pv.buildIds ++ [buildId]) pv.buildVariants pv.status)
        (bids ++ [buildId])
        (bss ++ [BuildStatus.mk bvName activated buildId])
        st'

/-- `AddNewBuildsForPatch` (part_003 lines 179-232): compute `newVariants`
as the requested variants not already in `p.BuildVariants`, record the
request on the patch (before any build creation), rebuild the Task-ID table
from the updated patch, create one build per new variant with the patch's
task list and `p.Activated`, then push the new build ids and status entries
onto the stored version document.  The in-memory version receives only the
build ids (the source appends to `patchVersion.BuildIds` but not to
`patchVersion.BuildVariants`). -/
def AddNewBuildsForPatch (p : Patch) (patchVersion : Version) (project : Project)
    (buildVariants : List String) (st : Store) :
    Patch × Store × Except EngineError Version :=
  let newVariants := buildVariants.filter (fun v => !(p.buildVariants.contains v))
  let p' := p.AddBuildVariants buildVariants
  let tt := NewPatchTaskIdTable project patchVersion p'
  match addBuildsLoop project tt p'.activated p'.tasks newVariants patchVersion
      [] [] st with
  | (st', Except.error e) => (p', st', Except.error e)
  | (st', Except.ok (pv, bids, bss)) =>
    (p', st'.pushBuildsToVersion patchVersion.id bids bss, Except.ok pv)

/-- Pointwise growth of a list: every element present before is still
present afterward at its original position, related to its old value by
`R`; new elements can only sit beyond the old length, i.e. are only
appended. -/
def listGrows {α : Type} (R : α → α → Prop) (l l' : List α) : Prop :=
  l.length ≤ l'.length ∧
    ∀ (i : Nat) (h : i < l.length) (h' : i < l'.length),
      R (l.get ⟨i, h⟩) (l'.get ⟨i, h'⟩)

/-- A build grows: same identity and flags, task ids only appended. -/
def buildGrows (b b' : Build) : Prop :=
  b'.id = b.id ∧ b'.version = b.version ∧ b'.buildVariant = b.buildVariant ∧
    b'.activated = b.activated ∧ ∃ app, b'.taskIds = b.taskIds ++ app

/-- A version grows: same identity and metadata, `BuildIds` and
`BuildVariants` entries only appended. -/
def versionGrows (v v' : Version) : Prop :=
  v'.id = v.id ∧ v'.identifier = v.identifier ∧ v'.revision = v.revision ∧
    v'.author = v.author ∧ v'.authorEmail = v.authorEmail ∧
    v'.message = v.message ∧ v'.status = v.status ∧
    (∃ app, v'.buildIds = v.buildIds ++ app) ∧
    ∃ app, v'.buildVariants = v.buildVariants ++ app

/-- The additive-only store relation of spec section 8: versions and builds
grow in place, task records are never modified (old positions hold the very
same record), and new documents are only appended. -/
def storeGrows (st st' : Store) : Prop :=
  listGrows versionGrows st.versions st'.versions ∧
    listGrows buildGrows st.builds st'.builds ∧
    listGrows Eq st.tasks st'.tasks

/-- A two-variant demo project: `linux` runs `compile` and `test` (`test`
depends on `compile` in its own variant), `osx` runs `compile` only — the
scenario project of spec section 8. -/
def demoProject : Project :=
  Project.mk
    [BuildVariant.mk "linux" "Linux" ["compile", "test"],
     BuildVariant.mk "osx" "OSX" ["compile"]]
    [TaskDef.mk "compile" true [],
     TaskDef.mk "test" true [TaskRef.mk "compile" ""]]

/-- A project whose `deploy` task declares a dependency on variant
`staging`, which does not exist — the unresolved-dependency scenario of
spec section 8. -/
def badProject : Project :=
  Project.mk [BuildVariant.mk "linux" "L" ["deploy"]]
    [TaskDef.mk "deploy" true [TaskRef.mk "compile" "staging"]]

/-- An environment where both external lookups succeed. -/
def env0 : Env :=
  Env.mk (some (ProjectRef.mk "own" "repo")) (some (GitCommit.mk "au" "ae" "msg"))

/-- The empty store. -/
def store0 : Store := Store.mk [] [] []

/-- A patch that is already finalized (`Version = "v-old"`). -/
def p0 : Patch :=
  Patch.mk "p0" "proj" "abc123" "desc" ["compile"] ["linux"]
    [VariantTasks.mk "linux" ["compile"]] "v-old" false demoProject

/-- A pending patch whose explicit request is `test` on `linux` only, while
`test` depends on `compile`; its legacy lists already mention both task
names. -/
def p2 : Patch :=
  Patch.mk "p2" "proj" "abc" "d" ["test", "compile"] ["linux"]
    [VariantTasks.mk "linux" ["test"]] "" false demoProject

/-- A finalized patch used for the extend counterexample: no build variants
recorded yet. -/
def p3 : Patch :=
  Patch.mk "p3" "proj" "abc" "d" ["compile"] [] [] "v1" true demoProject

/-- An empty version document for the extend counterexample. -/
def v3 : Version := Version.mk "v1" "proj" "abc" "au" "ae" "m" [] [] "created"

/-- A pending patch requesting `compile` and `test` on `linux` in both
formats coherently. -/
def p4 : Patch :=
  Patch.mk "p4" "proj" "abc" "d" ["compile", "test"] ["linux"]
    [VariantTasks.mk "linux" ["compile", "test"]] "" false demoProject

/-- The version document of an already-finalized patch holding one `linux`
build with its `compile` task. -/
def v8 : Version :=
  Version.mk "v1" "proj" "abc" "au" "ae" "m" ["v1_linux"]
    [BuildStatus.mk "linux" true "v1_linux"] "created"

/-- The existing `linux` build of `v8`. -/
def b8 : Build := Build.mk "v1_linux" "v1" "linux" ["v1_linux_compile"] true

/-- The existing `compile` task of `b8`. -/
def t8 : Task :=
  Task.mk "v1_linux_compile" "v1_linux" "v1" "linux" "compile" [] true "undispatched"

/-- The store holding the finalized version `v8` with its build and task. -/
def st8 : Store := Store.mk [v8] [b8] [t8]

/-- The finalized patch owning `v8`, with `compile` on `linux` already
requested. -/
def p8 : Patch :=
  Patch.mk "p8" "proj" "abc" "d" ["compile"] ["linux"] [] "v1" true demoProject

/-- The version record created by finalizing `p4`. -/
def v4out : Version :=
  Version.mk "p4_0" "proj" "abc" "au" "ae" "msg" ["p4_0_linux"]
    [BuildStatus.mk "linux" true "p4_0_linux"] "created"

/-- The `compile` task created by finalizing `p4`. -/
def t4compile : Task :=
  Task.mk "p4_0_linux_compile" "p4_0_linux" "p4_0" "linux" "compile" []
    true "undispatched"

/-- The `test` task created by finalizing `p4`, depending on the created
`compile` task. -/
def t4test : Task :=
  Task.mk "p4_0_linux_test" "p4_0_linux" "p4_0" "linux" "test"
    ["p4_0_linux_compile"] true "undispatched"

/-- The store left behind by finalizing `p4`. -/
def st4out : Store :=
  Store.mk [v4out]
    [Build.mk "p4_0_linux" "p4_0" "linux"
      ["p4_0_linux_compile", "p4_0_linux_test"] true]
    [t4compile, t4test]

/-- The patch `p3` after its build-variant list was updated by a failing
extend call. -/
def p3a : Patch :=
  Patch.mk "p3" "proj" "abc" "d" ["compile"] ["bogus", "linux"] [] "v1" true
    demoProject

/-- The patch `p8` after a successful extend recorded `test`. -/
def p8a : Patch :=
  Patch.mk "p8" "proj" "abc" "d" ["compile", "test"] ["linux"] [] "v1" true
    demoProject

/-- The `test` task added to `b8` by a successful extend. -/
def t8test : Task :=
  Task.mk "v1_linux_test" "v1_linux" "v1" "linux" "test" ["v1_linux_compile"]
    true "undispatched"

/-- The store left behind by the successful extend of `p8`. -/
def st8a : Store :=
  Store.mk [v8]
    [Build.mk "v1_linux" "v1" "linux" ["v1_linux_compile", "v1_linux_test"] true]
    [t8, t8test]

/-- A project where both variants run `compile` and `test` (`test` depends
on `compile` in its own variant), so a new variant's build resolves a
dependency within itself. -/
def demoProject2 : Project :=
  Project.mk
    [BuildVariant.mk "linux" "Linux" ["compile", "test"],
     BuildVariant.mk "osx" "OSX" ["compile", "test"]]
    [TaskDef.mk "compile" true [],
     TaskDef.mk "test" true [TaskRef.mk "compile" ""]]

/-- The version document of a finalized patch over `demoProject2` holding
one `linux` build. -/
def v9 : Version :=
  Version.mk "v9" "proj" "abc" "au" "ae" "m" ["v9_linux"]
    [BuildStatus.mk "linux" true "v9_linux"] "created"

/-- The existing `compile` task of version `v9`. -/
def t9compile : Task :=
  Task.mk "v9_linux_compile" "v9_linux" "v9" "linux" "compile" [] true
    "undispatched"

/-- The existing `test` task of version `v9`. -/
def t9test : Task :=
  Task.mk "v9_linux_test" "v9_linux" "v9" "linux" "test" ["v9_linux_compile"]
    true "undispatched"

/-- The existing `linux` build of version `v9`. -/
def b9 : Build :=
  Build.mk "v9_linux" "v9" "linux" ["v9_linux_compile", "v9_linux_test"] true

/-- The store holding the finalized version `v9`. -/
def st9 : Store := Store.mk [v9] [b9] [t9compile, t9test]

/-- The finalized patch owning `v9`, with `compile` and `test` on `linux`
already requested. -/
def p9 : Patch :=
  Patch.mk "p9" "proj" "abc" "d" ["compile", "test"] ["linux"] [] "v9" true
    demoProject2

/-- The `test` task created in the new `osx` build when extending `p9`. -/
def t9osxtest : Task :=
  Task.mk "v9_osx_test" "v9_osx" "v9" "osx" "test" ["v9_osx_compile"] true
    "undispatched"

/-- The `compile` task created in the new `osx` build when extending
`p9`. -/
def t9osxcompile : Task :=
  Task.mk "v9_osx_compile" "v9_osx" "v9" "osx" "compile" [] true
    "undispatched"

/-- The new `osx` build created when extending `p9`. -/
def b9osx : Build :=
  Build.mk "v9_osx" "v9" "osx" ["v9_osx_compile", "v9_osx_test"] true

/-- The stored version document of `v9` after the new `osx` build was
pushed. -/
def v9out : Version :=
  Version.mk "v9" "proj" "abc" "au" "ae" "m" ["v9_linux", "v9_osx"]
    [BuildStatus.mk "linux" true "v9_linux", BuildStatus.mk "osx" true "v9_osx"]
    "created"

/-- The store left behind by extending `p9` with the new `osx` variant. -/
def st9out : Store :=
  Store.mk [v9out] [b9, b9osx] [t9compile, t9test, t9osxcompile, t9osxtest]

/-- The patch `p9` after the extend recorded the `osx` variant. -/
def p9b : Patch :=
  Patch.mk "p9" "proj" "abc" "d" ["compile", "test"] ["linux", "osx"] [] "v9"
    true demoProject2

/-- The in-memory version value returned by extending `p9`: its `BuildIds`
got the new build appended, but — as in the source — its `BuildVariants`
did not. -/
def v9ret : Version :=
  Version.mk "v9" "proj" "abc" "au" "ae" "m" ["v9_linux", "v9_osx"]
    [BuildStatus.mk "linux" true "v9_linux"] "created"

theorem mem_addNew {α : Type} [DecidableEq α] (xs : List α) :
    ∀ (acc : List α) (y : α), y ∈ addNew acc xs ↔ y ∈ acc ∨ y ∈ xs := by
  induction xs with
  | nil => intro acc y; simp [addNew]
  | cons x xs ih =>
    intro acc y
    show y ∈ addNew (if x ∈ acc then acc else acc ++ [x]) xs ↔ _
    rw [ih]
    by_cases hx : x ∈ acc
    · simp only [hx, if_true, List.mem_cons]
      constructor
      · rintro (h | h)
        · exact Or.inl h
        · exact Or.inr (Or.inr h)
      · rintro (h | rfl | h)
        · exact Or.inl h
        · exact Or.inl hx
        · exact Or.inr h
    · simp only [hx, if_false, List.mem_append, List.mem_singleton, List.mem_cons]
      tauto

theorem subset_addNew {α : Type} [DecidableEq α] (acc xs : List α) (y : α)
    (h : y ∈ acc) : y ∈ addNew acc xs :=
  (mem_addNew xs acc y).mpr (Or.inl h)

theorem addNew_nodup {α : Type} [DecidableEq α] (xs : List α) :
    ∀ acc : List α, acc.Nodup → (addNew acc xs).Nodup := by
  induction xs with
  | nil => intro acc h; exact h
  | cons x xs ih =>
    intro acc h
    show List.Nodup (addNew (if x ∈ acc then acc else acc ++ [x]) xs)
    by_cases hx : x ∈ acc
    · simpa [hx] using ih acc h
    · simp only [hx, if_false]
      exact ih (acc ++ [x]) (by simp [List.nodup_append, h, hx])

theorem length_le_addNew {α : Type} [DecidableEq α] (xs : List α) :
    ∀ acc : List α, acc.length ≤ (addNew acc xs).length := by
  induction xs with
  | nil => intro acc; exact Nat.le_refl _
  | cons x xs ih =>
    intro acc
    show acc.length ≤ (addNew (if x ∈ acc then acc else acc ++ [x]) xs).length
    by_cases hx : x ∈ acc
    · simpa [hx] using ih acc
    · simp only [hx, if_false]
      calc acc.length ≤ (acc ++ [x]).length := by simp
        _ ≤ _ := ih (acc ++ [x])

theorem length_lt_addNew {α : Type} [DecidableEq α] (xs : List α) :
    ∀ (acc : List α) (x : α), x ∈ xs → x ∉ acc →
      acc.length < (addNew acc xs).length := by
  induction xs with
  | nil => intro acc x hx; exact absurd hx (List.not_mem_nil x)
  | cons z zs ih =>
    intro acc x hx hnx
    show acc.length < (addNew (if z ∈ acc then acc else acc ++ [z]) zs).length
    by_cases hz : z ∈ acc
    · rcases List.mem_cons.mp hx with rfl | hmem
      · exact absurd hz hnx
      · simpa [hz] using ih acc x hmem hnx
    · simp only [hz, if_false]
      calc acc.length < (acc ++ [z]).length := by simp
        _ ≤ _ := length_le_addNew zs (acc ++ [z])

theorem addNew_eq_self {α : Type} [DecidableEq α] (xs : List α) :
    ∀ acc : List α, (∀ x ∈ xs, x ∈ acc) → addNew acc xs = acc := by
  induction xs with
  | nil => intro acc _; rfl
  | cons x xs ih =>
    intro acc h
    have hx : x ∈ acc := h x (List.mem_cons_self x xs)
    show addNew (if x ∈ acc then acc else acc ++ [x]) xs = acc
    simpa [hx] using ih acc (fun y hy => h y (List.mem_cons_of_mem x hy))

theorem nodup_subset_length_le {α : Type} [DecidableEq α] (l m : List α)
    (hn : l.Nodup) (hsub : ∀ x ∈ l, x ∈ m) : l.length ≤ m.dedup.length := by
  have h1 : l.toFinset.card = l.length := List.toFinset_card_of_nodup hn
  have h2 : m.toFinset.card = m.dedup.length := List.card_toFinset m
  have h3 : l.toFinset ⊆ m.toFinset := by
    intro x hx
    exact List.mem_toFinset.mpr (hsub x (List.mem_toFinset.mp hx))
  calc l.length = l.toFinset.card := h1.symm
    _ ≤ m.toFinset.card := Finset.card_le_card h3
    _ = m.dedup.length := h2

theorem mem_depPairs {P : Project} {p q : TVPair} :
    q ∈ P.depPairs p ↔
      ∃ td, P.findTaskDef p.taskName = some td ∧
        ∃ r ∈ td.dependsOn, q = r.resolvePair p.variant := by
  unfold Project.depPairs
  cases hf : P.findTaskDef p.taskName with
  | none => simp
  | some td => simp [hf, List.mem_map, eq_comm]

theorem depPairs_universe (P : Project) (seed : List TVPair) :
    ∀ p ∈ closureUniverse P seed, ∀ q ∈ P.depPairs p,
      q ∈ closureUniverse P seed := by
  intro p hp q hq
  obtain ⟨td, hf, r, hr, rfl⟩ := mem_depPairs.mp hq
  have htd : td ∈ P.tasks := List.mem_of_find?_eq_some hf
  have hname : r.name ∈ P.refNames := by
    unfold Project.refNames
    exact List.mem_flatMap.mpr ⟨td, htd, List.mem_map.mpr ⟨r, hr, rfl⟩⟩
  unfold closureUniverse
  refine List.mem_append.mpr (Or.inr ?_)
  refine List.mem_flatMap.mpr ?_
  unfold TaskRef.resolvePair
  by_cases hv : r.variant = ""
  · -- the dependency lives in the dependent pair's own variant
    have hpv : p.variant ∈ seed.map (fun p => p.variant) ++ P.refVariants := by
      rcases List.mem_append.mp hp with hseed | hprod
      · exact List.mem_append.mpr (Or.inl (List.mem_map.mpr ⟨p, hseed, rfl⟩))
      · obtain ⟨v, hvmem, hpm⟩ := List.mem_flatMap.mp hprod
        obtain ⟨t, _, rfl⟩ := List.mem_map.mp hpm
        exact hvmem
    exact ⟨p.variant, hpv, List.mem_map.mpr ⟨r.name, hname, by simp [hv]⟩⟩
  · have hrv : r.variant ∈ P.refVariants := by
      unfold Project.refVariants
      refine List.mem_flatMap.mpr ⟨td, htd, ?_⟩
      exact List.mem_map.mpr ⟨r, List.mem_filter.mpr ⟨hr, by simpa using hv⟩, rfl⟩
    exact ⟨r.variant, List.mem_append.mpr (Or.inr hrv),
      List.mem_map.mpr ⟨r.name, hname, by simp [hv]⟩⟩

theorem round_mem_universe (P : Project) (acc U : List TVPair)
    (hsub : ∀ y ∈ acc, y ∈ U)
    (hU : ∀ p ∈ U, ∀ q ∈ P.depPairs p, q ∈ U) :
    ∀ x ∈ P.round acc, x ∈ U := by
  intro x hx
  rcases (mem_addNew _ _ _).mp hx with h | h
  · exact hsub x h
  · obtain ⟨p, hp, hq⟩ := List.mem_flatMap.mp h
    exact hU p (hsub p hp) x hq

theorem saturated_mem {P : Project} {acc : List TVPair}
    (h : P.saturated acc = true) :
    ∀ p ∈ acc, ∀ q ∈ P.depPairs p, q ∈ acc := by
  intro p hp q hq
  have := (List.all_eq_true.mp h) q (List.mem_flatMap.mpr ⟨p, hp, hq⟩)
  simpa using this

theorem not_saturated_lt (P : Project) (acc : List TVPair)
    (h : P.saturated acc = false) : acc.length < (P.round acc).length := by
  have h' : ¬ ((acc.flatMap (fun p => P.depPairs p)).all
      (fun q => decide (q ∈ acc)) = true) := by
    unfold Project.saturated at h
    simp [h]
  rw [List.all_eq_true] at h'
  push_neg at h'
  obtain ⟨x, hx, hnx⟩ := h'
  exact length_lt_addNew _ acc x hx (by simpa using hnx)

theorem includeAux_mem (P : Project) :
    ∀ (fuel : Nat) (acc : List TVPair) (y : TVPair), y ∈ acc →
      y ∈ includeAux P fuel acc := by
  intro fuel
  induction fuel with
  | zero => intro acc y hy; exact hy
  | succ n ih =>
    intro acc y hy
    show y ∈ (if P.saturated acc then acc else includeAux P n (P.round acc))
    by_cases hs : P.saturated acc = true
    · simpa [hs] using hy
    · have hs' : P.saturated acc = false := by simpa using hs
      simp only [hs', Bool.false_eq_true, if_false]
      exact ih (P.round acc) y (subset_addNew _ _ y hy)

theorem includeAux_saturated (P : Project) (U : List TVPair)
    (hU : ∀ p ∈ U, ∀ q ∈ P.depPairs p, q ∈ U) :
    ∀ (fuel : Nat) (acc : List TVPair), acc.Nodup → (∀ x ∈ acc, x ∈ U) →
      U.dedup.length < acc.length + fuel →
      P.saturated (includeAux P fuel acc) = true := by
  intro fuel
  induction fuel with
  | zero =>
    intro acc hn hsub hlt
    have := nodup_subset_length_le acc U hn hsub
    omega
  | succ n ih =>
    intro acc hn hsub hlt
    show P.saturated (if P.saturated acc then acc else includeAux P n (P.round acc)) = true
    by_cases hs : P.saturated acc = true
    · simp [hs]
    · have hs' : P.saturated acc = false := by simpa using hs
      simp only [hs', Bool.false_eq_true, if_false]
      refine ih (P.round acc) (addNew_nodup _ acc hn)
        (round_mem_universe P acc U hsub hU) ?_
      have := not_saturated_lt P acc hs'
      omega

theorem includeAux_result_mem (P : Project) (U : List TVPair)
    (hU : ∀ p ∈ U, ∀ q ∈ P.depPairs p, q ∈ U) :
    ∀ (fuel : Nat) (acc : List TVPair), (∀ x ∈ acc, x ∈ U) →
      ∀ y ∈ includeAux P fuel acc, y ∈ U := by
  intro fuel
  induction fuel with
  | zero => intro acc hsub y hy; exact hsub y hy
  | succ n ih =>
    intro acc hsub y hy
    by_cases hs : P.saturated acc = true
    · refine hsub y ?_
      simpa [includeAux, hs] using hy
    · have hs' : P.saturated acc = false := by simpa using hs
      refine ih (P.round acc) (round_mem_universe P acc U hsub hU) y ?_
      simpa [includeAux, hs', Bool.false_eq_true] using hy

theorem include_start_saturated (P : Project) (S : List TVPair) :
    P.saturated (includeAux P (includeFuel P S) (addNew [] S)) = true := by
  refine includeAux_saturated P (closureUniverse P S)
    (depPairs_universe P S) (includeFuel P S) (addNew [] S)
    (addNew_nodup S [] List.nodup_nil) ?_ ?_
  · intro x hx
    rcases (mem_addNew _ _ _).mp hx with h | h
    · exact absurd h (List.not_mem_nil x)
    · exact List.mem_append.mpr (Or.inl h)
  · have := (List.dedup_sublist (closureUniverse P S)).length_le
    unfold includeFuel
    omega

theorem include_ok_spec {P : Project} {S R : List TVPair}
    (h : dependencyIncluderInclude P S = Except.ok R) :
    (∀ p ∈ S, p ∈ R) ∧ (∀ p ∈ R, ∀ q ∈ P.depPairs p, q ∈ R) ∧
      ∀ p ∈ R, P.depsResolvable p = true := by
  unfold dependencyIncluderInclude at h
  cases hfind : (includeAux P (includeFuel P S) (addNew [] S)).find?
      (fun p => !(P.depsResolvable p)) with
  | some p => rw [hfind] at h; cases h
  | none =>
    rw [hfind] at h
    have hR : includeAux P (includeFuel P S) (addNew [] S) = R := by
      injection h
    refine ⟨?_, ?_, ?_⟩
    · intro p hp
      rw [← hR]
      exact includeAux_mem P _ _ p ((mem_addNew S [] p).mpr (Or.inr hp))
    · intro p hp q hq
      rw [← hR] at hp ⊢
      exact saturated_mem (include_start_saturated P S) p hp q hq
    · intro p hp
      rw [← hR] at hp
      have := List.find?_eq_none.mp hfind p hp
      simpa using this

theorem include_ok_reachable {P : Project} {S R : List TVPair}
    (h : dependencyIncluderInclude P S = Except.ok R) :
    ∀ p, Reachable P S p → p ∈ R := by
  intro p hp
  induction hp with
  | seed hmem => exact (include_ok_spec h).1 _ hmem
  | dep _ hq ih => exact (include_ok_spec h).2.1 _ ih _ hq

theorem include_error_shape {P : Project} {S : List TVPair} {e : EngineError}
    (h : dependencyIncluderInclude P S = Except.error e) :
    ∃ x, e = EngineError.unresolvedDependency x := by
  unfold dependencyIncluderInclude at h
  cases hfind : (includeAux P (includeFuel P S) (addNew [] S)).find?
      (fun p => !(P.depsResolvable p)) with
  | some p =>
    rw [hfind] at h
    exact ⟨p, by injection h with h; exact h.symm⟩
  | none => rw [hfind] at h; cases h

/-- C6: for every project and seed set, a successful
`IncludePatchDependencies` run returns a superset of the seed that is
closed under declared dependencies — every dependency of every pair in the
result, resolved to the ref's explicit variant or the pair's own variant
when unset, is also in the result. -/
theorem c6_include_closure_complete (P : Project) (S R : List TVPair)
    (h : IncludePatchDependencies P S = Except.ok R) :
    (∀ p ∈ S, p ∈ R) ∧ ∀ p ∈ R, ∀ q ∈ P.depPairs p, q ∈ R :=
  ⟨(include_ok_spec h).1, (include_ok_spec h).2.1⟩

/-- Witness for C6 at the spec's scenario: seeding `(linux, test)` in the
demo project yields the closure with `(linux, compile)` added, and the
closure-completeness theorem instantiates there. -/
theorem c6_include_closure_complete_witness :
    IncludePatchDependencies demoProject [TVPair.mk "linux" "test"] =
      Except.ok [TVPair.mk "linux" "test", TVPair.mk "linux" "compile"] ∧
    ((∀ p ∈ [TVPair.mk "linux" "test"],
        p ∈ [TVPair.mk "linux" "test", TVPair.mk "linux" "compile"]) ∧
      ∀ p ∈ [TVPair.mk "linux" "test", TVPair.mk "linux" "compile"],
        ∀ q ∈ demoProject.depPairs p,
          q ∈ [TVPair.mk "linux" "test", TVPair.mk "linux" "compile"]) :=
  ⟨by rfl, c6_include_closure_complete demoProject _ _ (by rfl)⟩

/-- C5: if any pair reachable from the seed declares a dependency that
resolves to a pair absent from the project (unknown variant, or task name
absent from the target variant's task list), the whole closure call fails
with an unresolved-dependency error instead of silently dropping the
edge.  (The includer is pure: no store is touched, so no records are
created by a failing call.) -/
theorem c5_include_unresolved_error (P : Project) (S : List TVPair)
    (p q : TVPair) (hre : Reachable P S p) (hq : q ∈ P.depPairs p)
    (hbad : P.pairInProject q = false) :
    ∃ x, IncludePatchDependencies P S =
      Except.error (EngineError.unresolvedDependency x) := by
  unfold IncludePatchDependencies
  cases hres : dependencyIncluderInclude P S with
  | error e =>
    obtain ⟨x, rfl⟩ := include_error_shape hres
    exact ⟨x, rfl⟩
  | ok R =>
    exfalso
    have hpR := include_ok_reachable hres p hre
    have hresolv := (include_ok_spec hres).2.2 p hpR
    unfold Project.depsResolvable at hresolv
    have := (List.all_eq_true.mp hresolv) q hq
    simp [hbad] at this

/-- Witness for C5 at the spec's scenario: `deploy` declares a dependency
on the non-existent variant `staging`, and the closure call errors. -/
theorem c5_include_unresolved_error_witness :
    ∃ x, IncludePatchDependencies badProject [TVPair.mk "linux" "deploy"] =
      Except.error (EngineError.unresolvedDependency x) :=
  c5_include_unresolved_error badProject [TVPair.mk "linux" "deploy"]
    (TVPair.mk "linux" "deploy") (TVPair.mk "staging" "compile")
    (Reachable.seed (by decide)) (by decide) (by decide)

/-- C9: when a schedule request carries a non-empty explicit
`VariantsTasks` form, the pair set is built exclusively from it — the
legacy flat `Variants` and `Tasks` lists do not enter at all — and the
`Variants × Tasks` cross product is used exactly when the explicit form is
empty (ui/patch.go lines 112-121). -/
theorem c9_explicit_form_precedence (vts : List VariantTasks)
    (vs ts : List String) (d : String) :
    (vts ≠ [] →
      schedulePatchPairs (PatchVariantsTasksRequest.mk vts vs ts d) =
        VariantTasksToTVPairs vts) ∧
    schedulePatchPairs (PatchVariantsTasksRequest.mk [] vs ts d) =
      vs.flatMap (fun v => ts.map (fun t => TVPair.mk v t)) := by
  constructor
  · intro h
    unfold schedulePatchPairs
    rw [if_pos]
    exact List.length_pos.mpr h
  · rfl

/-- Witness for C9: a request carrying both forms uses only the explicit
one; the same request with the explicit form emptied falls back to the
cross product. -/
theorem c9_explicit_form_precedence_witness :
    schedulePatchPairs
        (PatchVariantsTasksRequest.mk [VariantTasks.mk "linux" ["a"]] ["v"] ["t"] "") =
      VariantTasksToTVPairs [VariantTasks.mk "linux" ["a"]] ∧
    schedulePatchPairs (PatchVariantsTasksRequest.mk [] ["v"] ["t"] "") =
      ["v"].flatMap (fun v => ["t"].map (fun t => TVPair.mk v t)) :=
  ⟨(c9_explicit_form_precedence [VariantTasks.mk "linux" ["a"]] ["v"] ["t"] "").1
      (by decide),
    (c9_explicit_form_precedence [VariantTasks.mk "linux" ["a"]] ["v"] ["t"] "").2⟩

theorem find?_key_unique (k : String) (v : VariantTasks) :
    ∀ m : List (String × VariantTasks), (m.map (fun e => e.1)).Nodup →
      (k, v) ∈ m → m.find? (fun e => e.1 == k) = some (k, v) := by
  intro m
  induction m with
  | nil => intro _ h; cases h
  | cons e rest ih =>
    intro hn hmem
    have hn' := hn
    rw [List.map_cons, List.nodup_cons] at hn'
    rcases List.mem_cons.mp hmem with rfl | hmem'
    · exact List.find?_cons_of_pos rest (by simp)
    · have hk : k ∈ rest.map (fun e => e.1) := List.mem_map.mpr ⟨(k, v), hmem', rfl⟩
      have hne : ¬ ((fun e : String × VariantTasks => e.1 == k) e = true) := by
        intro hbeq
        have he1 : e.1 = k := by simpa using hbeq
        exact hn'.1 (he1 ▸ hk)
      rw [List.find?_cons_of_neg rest hne]
      exact ih hn'.2 hmem'

theorem find?_key_none (k : String) (m : List (String × VariantTasks))
    (h : k ∉ m.map (fun e => e.1)) :
    m.find? (fun e => e.1 == k) = none := by
  rw [List.find?_eq_none]
  intro e he hbeq
  exact h (List.mem_map.mpr ⟨e, he, by simpa using hbeq⟩)

theorem vtMapStep_inv (p : TVPair) (pre : List TVPair)
    (m : List (String × VariantTasks))
    (hn : (m.map (fun e => e.1)).Nodup)
    (hk : ∀ x : String, x ∈ m.map (fun e => e.1) ↔
      x ∈ pre.map (fun q => q.variant))
    (hv : ∀ e ∈ m, e.2.variant = e.1 ∧
      e.2.tasks = (pre.filter (fun q => q.variant == e.1)).map
        (fun q => q.taskName)) :
    ((vtMapStep m p).map (fun e => e.1)).Nodup ∧
    (∀ x : String, x ∈ (vtMapStep m p).map (fun e => e.1) ↔
      x ∈ (pre ++ [p]).map (fun q => q.variant)) ∧
    ∀ e ∈ vtMapStep m p, e.2.variant = e.1 ∧
      e.2.tasks = ((pre ++ [p]).filter (fun q => q.variant == e.1)).map
        (fun q => q.taskName) := by
  by_cases hmem : p.variant ∈ m.map (fun e => e.1)
  · -- the pair's variant already has an entry: in-place update
    have hany : m.any (fun e => e.1 == p.variant) = true := by
      rw [List.any_eq_true]
      obtain ⟨e, he, heq⟩ := List.mem_map.mp hmem
      exact ⟨e, he, by simp [heq]⟩
    have hstep : vtMapStep m p = m.map (fun e =>
        if e.1 == p.variant then
          (p.variant, VariantTasks.mk p.variant
            ((vtMapGet m p.variant).tasks ++ [p.taskName]))
        else e) := by
      unfold vtMapStep vtMapSet
      rw [if_pos hany]
    have hkeys : (vtMapStep m p).map (fun e => e.1) = m.map (fun e => e.1) := by
      rw [hstep, List.map_map]
      apply List.map_congr_left
      intro e _
      by_cases hbeq : (e.1 == p.variant) = true
      · simp only [Function.comp_apply, hbeq, if_true]
        exact (by simpa using hbeq : e.1 = p.variant).symm
      · have hne : e.1 ≠ p.variant := by simpa using hbeq
        simp [hne]
    refine ⟨by rw [hkeys]; exact hn, ?_, ?_⟩
    · intro x
      rw [hkeys, hk, List.map_append, List.mem_append]
      constructor
      · exact fun h => Or.inl h
      · rintro (h | h)
        · exact h
        · have : x = p.variant := by simpa using h
          exact this ▸ (hk p.variant).mp hmem
    · intro e' he'
      rw [hstep] at he'
      obtain ⟨e, he, heq⟩ := List.mem_map.mp he'
      by_cases hbeq : (e.1 == p.variant) = true
      · have he1 : e.1 = p.variant := by simpa using hbeq
        rw [if_pos hbeq] at heq
        have hget : vtMapGet m p.variant = e.2 := by
          unfold vtMapGet
          rw [find?_key_unique p.variant e.2 m hn (by rw [← he1]; exact he)]
        subst heq
        refine ⟨rfl, ?_⟩
        show (vtMapGet m p.variant).tasks ++ [p.taskName] = _
        rw [hget, (hv e he).2, List.filter_append, List.map_append, he1]
        have : [p].filter (fun q => q.variant == p.variant) = [p] := by
          simp [List.filter]
        rw [this]
        simp
      · rw [if_neg hbeq] at heq
        subst heq
        refine ⟨(hv e he).1, ?_⟩
        rw [(hv e he).2, List.filter_append]
        have : [p].filter (fun q => q.variant == e.1) = [] := by
          have : ¬ (p.variant == e.1) = true := by
            intro hx
            exact hbeq (by simp at hx ⊢; exact hx.symm)
          simp [List.filter, this]
        rw [this, List.append_nil]
  · -- fresh variant: the entry is appended
    have hany : m.any (fun e => e.1 == p.variant) = false := by
      rw [List.any_eq_false]
      intro e he hbeq
      exact hmem (List.mem_map.mpr ⟨e, he, by simpa using hbeq⟩)
    have hget : vtMapGet m p.variant = VariantTasks.mk "" [] := by
      unfold vtMapGet
      rw [find?_key_none p.variant m hmem]
    have hstep : vtMapStep m p =
        m ++ [(p.variant, VariantTasks.mk p.variant [p.taskName])] := by
      unfold vtMapStep vtMapSet
      rw [if_neg (by simp [hany]), hget]
      simp
    rw [hstep]
    refine ⟨?_, ?_, ?_⟩
    · rw [List.map_append, List.nodup_append]
      exact ⟨hn, List.nodup_singleton _, by
        intro x hx hx'
        have : x = p.variant := by simpa using hx'
        exact hmem (this ▸ hx)⟩
    · intro x
      rw [List.map_append, List.map_append, List.mem_append, List.mem_append, hk]
      simp
    · intro e' he'
      rcases List.mem_append.mp he' with he | he
      · refine ⟨(hv e' he).1, ?_⟩
        rw [(hv e' he).2, List.filter_append]
        have : [p].filter (fun q => q.variant == e'.1) = [] := by
          have : ¬ (p.variant == e'.1) = true := by
            intro hx
            have : p.variant = e'.1 := by simpa using hx
            exact hmem (this ▸ List.mem_map.mpr ⟨e', he, rfl⟩)
          simp [List.filter, this]
        rw [this, List.append_nil]
      · have : e' = (p.variant, VariantTasks.mk p.variant [p.taskName]) := by
          simpa using he
        subst this
        refine ⟨rfl, ?_⟩
        show [p.taskName] = _
        rw [List.filter_append]
        have h1 : pre.filter (fun q => q.variant == p.variant) = [] := by
          rw [List.filter_eq_nil_iff]
          intro q hq hbeq
          have : q.variant = p.variant := by simpa using hbeq
          exact hmem ((hk p.variant).mpr (this ▸ List.mem_map.mpr ⟨q, hq, rfl⟩))
        have h2 : [p].filter (fun q => q.variant == p.variant) = [p] := by
          simp [List.filter]
        rw [h1, h2]
        simp

theorem vtMapFold_inv :
    ∀ (l pre : List TVPair) (m : List (String × VariantTasks)),
      (m.map (fun e => e.1)).Nodup →
      (∀ x : String, x ∈ m.map (fun e => e.1) ↔
        x ∈ pre.map (fun q => q.variant)) →
      (∀ e ∈ m, e.2.variant = e.1 ∧
        e.2.tasks = (pre.filter (fun q => q.variant == e.1)).map
          (fun q => q.taskName)) →
      ((l.foldl vtMapStep m).map (fun e => e.1)).Nodup ∧
      (∀ x : String, x ∈ (l.foldl vtMapStep m).map (fun e => e.1) ↔
        x ∈ (pre ++ l).map (fun q => q.variant)) ∧
      ∀ e ∈ l.foldl vtMapStep m, e.2.variant = e.1 ∧
        e.2.tasks = ((pre ++ l).filter (fun q => q.variant == e.1)).map
          (fun q => q.taskName) := by
  intro l
  induction l with
  | nil =>
    intro pre m hn hk hv
    simp only [List.foldl_nil, List.append_nil]
    exact ⟨hn, hk, hv⟩
  | cons p l ih =>
    intro pre m hn hk hv
    obtain ⟨hn', hk', hv'⟩ := vtMapStep_inv p pre m hn hk hv
    have := ih (pre ++ [p]) (vtMapStep m p) hn' hk' hv'
    simpa [List.append_assoc] using this

theorem vtMapOf_inv (l : List TVPair) :
    ((vtMapOf l).map (fun e => e.1)).Nodup ∧
    (∀ x : String, x ∈ (vtMapOf l).map (fun e => e.1) ↔
      x ∈ l.map (fun q => q.variant)) ∧
    ∀ e ∈ vtMapOf l, e.2.variant = e.1 ∧
      e.2.tasks = (l.filter (fun q => q.variant == e.1)).map
        (fun q => q.taskName) := by
  have := vtMapFold_inv l [] [] (by simp) (by simp) (by simp)
  simpa using this

theorem vtMapOf_length (l : List TVPair) :
    (vtMapOf l).length = (l.map (fun q => q.variant)).dedup.length := by
  obtain ⟨hn, hk, _⟩ := vtMapOf_inv l
  have h1 : (vtMapOf l).length = ((vtMapOf l).map (fun e => e.1)).length := by
    simp
  have h2 : ((vtMapOf l).map (fun e => e.1)).toFinset.card =
      ((vtMapOf l).map (fun e => e.1)).length :=
    List.toFinset_card_of_nodup hn
  have h3 : ((vtMapOf l).map (fun e => e.1)).toFinset =
      (l.map (fun q => q.variant)).toFinset := by
    ext x
    simp only [List.mem_toFinset]
    exact hk x
  rw [h1, ← h2, h3, List.card_toFinset]

/-- C10: on any non-empty pair list with k distinct variant names,
`TVPairsToVariantTasks` returns a slice of length 2k whose first k entries
are zero-valued `VariantTasks` (empty variant, empty task list); the real
per-variant groupings — each naming a variant of the input with exactly
that variant's task names in input order — occupy only the last k
positions. -/
theorem c10_tvpairs_to_varianttasks_padding (l : List TVPair) (h : l ≠ []) :
    (TVPairsToVariantTasks l).length =
      2 * (l.map (fun q => q.variant)).dedup.length ∧
    (∀ vt ∈ (TVPairsToVariantTasks l).take
        (l.map (fun q => q.variant)).dedup.length,
      vt = VariantTasks.mk "" []) ∧
    ∀ vt ∈ (TVPairsToVariantTasks l).drop
        (l.map (fun q => q.variant)).dedup.length,
      vt.variant ∈ l.map (fun q => q.variant) ∧
        vt.tasks = (l.filter (fun q => q.variant == vt.variant)).map
          (fun q => q.taskName) := by
  obtain ⟨hn, hk, hv⟩ := vtMapOf_inv l
  have hlen := vtMapOf_length l
  unfold TVPairsToVariantTasks
  rw [← hlen]
  have htake : (List.replicate (vtMapOf l).length (VariantTasks.mk "" []) ++
      (vtMapOf l).map (fun e => e.2)).take (vtMapOf l).length =
      List.replicate (vtMapOf l).length (VariantTasks.mk "" []) := by
    simp
  have hdrop : (List.replicate (vtMapOf l).length (VariantTasks.mk "" []) ++
      (vtMapOf l).map (fun e => e.2)).drop (vtMapOf l).length =
      (vtMapOf l).map (fun e => e.2) := by
    simp
  refine ⟨?_, ?_, ?_⟩
  · simp only [List.length_append, List.length_replicate, List.length_map]
    omega
  · intro vt hvt
    rw [htake] at hvt
    exact List.eq_of_mem_replicate hvt
  · intro vt hvt
    rw [hdrop] at hvt
    obtain ⟨e, he, rfl⟩ := List.mem_map.mp hvt
    obtain ⟨h1, h2⟩ := hv e he
    refine ⟨?_, ?_⟩
    · rw [h1]
      exact (hk e.1).mp (List.mem_map.mpr ⟨e, he, rfl⟩)
    · rw [h1]
      exact h2

/-- Witness for C10: three pairs over two distinct variants yield two
leading zero-valued entries followed by the two real groupings. -/
theorem c10_tvpairs_to_varianttasks_padding_witness :
    (TVPairsToVariantTasks
        [TVPair.mk "linux" "compile", TVPair.mk "linux" "test",
          TVPair.mk "osx" "compile"]).length =
      2 * (([TVPair.mk "linux" "compile", TVPair.mk "linux" "test",
          TVPair.mk "osx" "compile"].map (fun q => q.variant)).dedup).length ∧
    (∀ vt ∈ (TVPairsToVariantTasks
        [TVPair.mk "linux" "compile", TVPair.mk "linux" "test",
          TVPair.mk "osx" "compile"]).take
        (([TVPair.mk "linux" "compile", TVPair.mk "linux" "test",
          TVPair.mk "osx" "compile"].map (fun q => q.variant)).dedup).length,
      vt = VariantTasks.mk "" []) ∧
    ∀ vt ∈ (TVPairsToVariantTasks
        [TVPair.mk "linux" "compile", TVPair.mk "linux" "test",
          TVPair.mk "osx" "compile"]).drop
        (([TVPair.mk "linux" "compile", TVPair.mk "linux" "test",
          TVPair.mk "osx" "compile"].map (fun q => q.variant)).dedup).length,
      vt.variant ∈ [TVPair.mk "linux" "compile", TVPair.mk "linux" "test",
          TVPair.mk "osx" "compile"].map (fun q => q.variant) ∧
        vt.tasks = ([TVPair.mk "linux" "compile", TVPair.mk "linux" "test",
          TVPair.mk "osx" "compile"].filter
            (fun q => q.variant == vt.variant)).map (fun q => q.taskName) :=
  c10_tvpairs_to_varianttasks_padding
    [TVPair.mk "linux" "compile", TVPair.mk "linux" "test",
      TVPair.mk "osx" "compile"] (by decide)

/-- C1 counterexample: `p0` is already finalized (`Version = "v-old"`), yet
`FinalizePatch` succeeds — no AlreadyFinalized error — creates a Version
and a Build record (writes), and returns a patch whose `Version` field was
overwritten, contradicting the claim that the call fails and performs no
writes. -/
theorem c1_counterexample :
    p0.version ≠ "" ∧
    (FinalizePatch p0 env0 store0).2.map
        (fun r => (r.1.id, r.2.version, r.2.activated)) =
      Except.ok ("p0_0", "p0_0", true) ∧
    (FinalizePatch p0 env0 store0).1.versions.length = 1 ∧
    (FinalizePatch p0 env0 store0).1.builds.length = 1 ∧
    (FinalizePatch p0 env0 store0).1.tasks.length = 1 :=
  ⟨by decide, by rfl, by rfl, by rfl, by rfl⟩

/-- C1 (amended): `FinalizePatch` performs no AlreadyFinalized check at
all — its behavior is completely independent of `p.Version` — and the
at-most-once discipline rests solely on the caller: `schedulePatch`
routes a patch to the extend path exactly when `Version ≠ ""` and invokes
`FinalizePatch` only on pending patches. -/
theorem c1_finalize_has_no_version_check :
    (∀ (p : Patch) (env : Env) (st : Store) (x : String),
      FinalizePatch (Patch.mk p.id p.project p.githash p.description p.tasks
        p.buildVariants p.variantsTasks x p.activated p.patchedConfig) env st =
        FinalizePatch p env st) ∧
    ∀ p : Patch, schedulePatchBranch p = ScheduleAction.extend ↔
      p.version ≠ "" := by
  constructor
  · intro p env st x
    rfl
  · intro p
    unfold schedulePatchBranch
    by_cases h : p.version = ""
    · simp [h]
    · simp [h]

theorem resolveDepIds_ok {tt : TaskIdTable} {ownVariant : String} :
    ∀ {refs : List TaskRef} {ds : List String},
      resolveDepIds tt ownVariant refs = Except.ok ds →
      ∀ d ∈ ds, ∃ q, tableLookup tt q = some d := by
  intro refs
  induction refs with
  | nil =>
    intro ds h d hd
    unfold resolveDepIds at h
    injection h with h
    subst h
    cases hd
  | cons r rs ih =>
    intro ds h d hd
    unfold resolveDepIds at h
    cases hlook : tableLookup tt (r.resolvePair ownVariant) with
    | none => rw [hlook] at h; cases h
    | some d0 =>
      rw [hlook] at h
      cases hres : resolveDepIds tt ownVariant rs with
      | error e => rw [hres] at h; cases h
      | ok ds' =>
        rw [hres] at h
        injection h with h
        subst h
        rcases List.mem_cons.mp hd with rfl | hmem
        · exact ⟨r.resolvePair ownVariant, hlook⟩
        · exact ih hres d hmem

theorem mkTask_ok {project : Project} {v : Version} {tt : TaskIdTable}
    {bid bvName : String} {activ : Bool} {tn : String} {tk : Task}
    (h : mkTask project v tt bid bvName activ tn = Except.ok tk) :
    tk.version = v.id ∧ tk.buildVariant = bvName ∧ tk.displayName = tn ∧
      tk.activated = activ ∧ tk.buildId = bid ∧ tk.status = "undispatched" ∧
      tableLookup tt (TVPair.mk bvName tn) = some tk.id ∧
      ∀ d ∈ tk.dependsOn, ∃ q, tableLookup tt q = some d := by
  unfold mkTask at h
  cases hlook : tableLookup tt (TVPair.mk bvName tn) with
  | none => rw [hlook] at h; cases h
  | some tid =>
    rw [hlook] at h
    cases hres : resolveDepIds tt bvName
        (match project.findTaskDef tn with
         | none => []
         | some td => td.dependsOn) with
    | error e => rw [hres] at h; cases h
    | ok ds =>
      rw [hres] at h
      injection h with h
      subst h
      exact ⟨rfl, rfl, rfl, rfl, rfl, rfl, by simp [hlook],
        resolveDepIds_ok hres⟩

theorem mkTasks_ok {project : Project} {v : Version} {tt : TaskIdTable}
    {bid bvName : String} {activ : Bool} :
    ∀ {names : List String} {ts : List Task},
      mkTasks project v tt bid bvName activ names = Except.ok ts →
      ts.map (fun t => t.displayName) = names ∧
      ∀ t ∈ ts, t.version = v.id ∧ t.buildVariant = bvName ∧
        t.activated = activ ∧ t.buildId = bid ∧ t.status = "undispatched" ∧
        tableLookup tt (TVPair.mk bvName t.displayName) = some t.id ∧
        ∀ d ∈ t.dependsOn, ∃ q, tableLookup tt q = some d := by
  intro names
  induction names with
  | nil =>
    intro ts h
    unfold mkTasks at h
    injection h with h
    subst h
    exact ⟨rfl, by intro t ht; cases ht⟩
  | cons tn tns ih =>
    intro ts h
    unfold mkTasks at h
    cases hmk : mkTask project v tt bid bvName activ tn with
    | error e => rw [hmk] at h; cases h
    | ok tk =>
      rw [hmk] at h
      cases hmks : mkTasks project v tt bid bvName activ tns with
      | error e => rw [hmks] at h; cases h
      | ok tks =>
        rw [hmks] at h
        injection h with h
        subst h
        obtain ⟨hmap, hall⟩ := ih hmks
        obtain ⟨h1, h2, h3, h4, h5, h6, h7, h8⟩ := mkTask_ok hmk
        refine ⟨by simp [hmap, h3], ?_⟩
        intro t ht
        rcases List.mem_cons.mp ht with rfl | hmem
        · exact ⟨h1, h2, h4, h5, h6, by rw [h3]; exact h7, h8⟩
        · exact hall t hmem

theorem tableLookup_tableFor_some {vid : String} {prs : List TVPair}
    {q : TVPair} {s : String}
    (h : tableLookup (tableFor vid prs) q = some s) :
    q ∈ prs ∧ s = taskIdFor vid q.variant q.taskName := by
  unfold tableLookup at h
  cases hf : List.find? (fun e => e.1 == q) (tableFor vid prs) with
  | none => rw [hf] at h; cases h
  | some e =>
    rw [hf] at h
    injection h with h
    subst h
    have hmem := List.mem_of_find?_eq_some hf
    have hpred := List.find?_some hf
    obtain ⟨q', hq', he⟩ := List.mem_map.mp hmem
    have he1 : e.1 = q := by simpa using hpred
    subst he
    have : q' = q := by simpa using he1
    subst this
    exact ⟨hq', rfl⟩

theorem tableLookup_tableFor_mem {vid : String} {q : TVPair} :
    ∀ {prs : List TVPair}, q ∈ prs →
      tableLookup (tableFor vid prs) q =
        some (taskIdFor vid q.variant q.taskName) := by
  intro prs
  induction prs with
  | nil => intro h; cases h
  | cons p ps ih =>
    intro h
    unfold tableLookup tableFor
    by_cases hpq : p = q
    · subst hpq
      rw [List.map_cons, List.find?_cons_of_pos _ (by simp)]
    · rcases List.mem_cons.mp h with rfl | hmem
      · exact absurd rfl hpq
      · rw [List.map_cons, List.find?_cons_of_neg _ (by simp [hpq])]
        have := ih hmem
        unfold tableLookup tableFor at this
        exact this

theorem CreateBuild_ok {project : Project} {v : Version} {tt : TaskIdTable}
    {bvName : String} {activ : Bool} {names : List String} {st st' : Store}
    {bid : String}
    (h : CreateBuildFromVersion project v tt bvName activ names st =
      (st', Except.ok bid)) :
    bid = buildIdFor v.id bvName ∧
    ∃ ts, mkTasks project v tt (buildIdFor v.id bvName) bvName activ names =
        Except.ok ts ∧
      st'.versions = st.versions ∧
      st'.builds = st.builds ++
        [Build.mk (buildIdFor v.id bvName) v.id bvName
          (ts.map (fun t => t.id)) activ] ∧
      st'.tasks = st.tasks ++ ts := by
  unfold CreateBuildFromVersion at h
  cases hfv : project.findVariant bvName with
  | none => rw [hfv] at h; simp at h
  | some bv =>
    rw [hfv] at h
    dsimp only at h
    by_cases hall : names.all (fun t => bv.taskNames.contains t) = true
    · rw [if_pos hall] at h
      cases hmks : mkTasks project v tt (buildIdFor v.id bvName) bvName
          activ names with
      | error e => rw [hmks] at h; simp at h
      | ok ts =>
        rw [hmks] at h
        dsimp only at h
        have h1 : ((st.insertBuild
            (Build.mk (buildIdFor v.id bvName) v.id bvName
              (ts.map (fun t => t.id)) activ)).insertTasks ts) = st' :=
          congrArg Prod.fst h
        have h2 : Except.ok (ε := EngineError) (buildIdFor v.id bvName) =
            Except.ok bid := congrArg Prod.snd h
        injection h2 with h2
        exact ⟨h2.symm, ts, rfl, by rw [← h1]; rfl, by rw [← h1, h2]; rfl,
          by rw [← h1]; rfl⟩
    · rw [if_neg hall] at h
      simp at h

theorem finalizeBuilds_ok {project : Project} {tt : TaskIdTable} :
    ∀ {vts : List VariantTasks} {pv pv' : Version} {st st' : Store},
      finalizeBuilds project tt vts pv st = (st', Except.ok pv') →
      (pv'.id = pv.id ∧ pv'.identifier = pv.identifier ∧
        pv'.revision = pv.revision ∧ pv'.author = pv.author ∧
        pv'.authorEmail = pv.authorEmail ∧ pv'.message = pv.message ∧
        pv'.status = pv.status) ∧
      pv'.buildIds = pv.buildIds ++
        vts.map (fun vt => buildIdFor pv.id vt.variant) ∧
      pv'.buildVariants = pv.buildVariants ++ vts.map (fun vt =>
        BuildStatus.mk vt.variant true (buildIdFor pv.id vt.variant)) ∧
      st'.versions = st.versions ∧
      (∃ nbs, st'.builds = st.builds ++ nbs ∧
        nbs.map (fun b => b.buildVariant) = vts.map (fun vt => vt.variant) ∧
        nbs.map (fun b => b.id) =
          vts.map (fun vt => buildIdFor pv.id vt.variant) ∧
        ∀ b ∈ nbs, b.activated = true ∧ b.version = pv.id) ∧
      ∃ nts, st'.tasks = st.tasks ++ nts ∧
        (∀ t ∈ nts, t.version = pv.id ∧ t.activated = true ∧
          tableLookup tt (TVPair.mk t.buildVariant t.displayName) =
            some t.id ∧
          ∀ d ∈ t.dependsOn, ∃ q, tableLookup tt q = some d) ∧
        ∀ vt ∈ vts, ∀ tn ∈ vt.tasks, ∃ t ∈ nts,
          t.buildVariant = vt.variant ∧ t.displayName = tn := by
  intro vts
  induction vts with
  | nil =>
    intro pv pv' st st' h
    unfold finalizeBuilds at h
    have h1 : st = st' := congrArg Prod.fst h
    have h2 : (Except.ok pv : Except EngineError Version) = Except.ok pv' :=
      congrArg Prod.snd h
    injection h2 with h2
    subst h1
    subst h2
    refine ⟨⟨rfl, rfl, rfl, rfl, rfl, rfl, rfl⟩, by simp, by simp, rfl,
      ⟨[], by simp, rfl, rfl, by intro b hb; cases hb⟩,
      [], by simp, ?_⟩
    constructor
    · intro t ht; cases ht
    · intro vt hvt; cases hvt
  | cons vt rest ih =>
    intro pv pv' st st' h
    unfold finalizeBuilds at h
    rcases hcb : CreateBuildFromVersion project pv tt vt.variant true vt.tasks st
      with ⟨st1, r⟩
    cases r with
    | error e => rw [hcb] at h; dsimp only at h; simp at h
    | ok buildId =>
      rw [hcb] at h
      dsimp only at h
      obtain ⟨hbid, ts, hmks, hv1, hb1, ht1⟩ := CreateBuild_ok hcb
      obtain ⟨hfields, hbids, hbvs, hvers,
        ⟨nbs, hnbs, hnbsv, hnbsid, hnbsall⟩,
        nts, hnts, hntsall, hntscov⟩ := ih h
      obtain ⟨hmap, hall⟩ := mkTasks_ok hmks
      refine ⟨hfields, ?_, ?_, ?_, ?_, ?_⟩
      · rw [hbids]
        simp [hbid, List.append_assoc]
      · rw [hbvs]
        simp [hbid, List.append_assoc]
      · rw [hvers, hv1]
      · refine ⟨Build.mk (buildIdFor pv.id vt.variant) pv.id vt.variant
          (ts.map (fun t => t.id)) true :: nbs, ?_, ?_, ?_, ?_⟩
        · rw [hnbs, hb1]
          simp [List.append_assoc]
        · simp [hnbsv]
        · simp [hnbsid]
        · intro b hb
          rcases List.mem_cons.mp hb with rfl | hmem
          · exact ⟨rfl, rfl⟩
          · exact hnbsall b hmem
      · refine ⟨ts ++ nts, ?_, ?_, ?_⟩
        · rw [hnts, ht1]
          simp [List.append_assoc]
        · intro t ht
          rcases List.mem_append.mp ht with hmem | hmem
          · obtain ⟨ha, hb, hc, _, _, hf, hg⟩ := hall t hmem
            exact ⟨ha, hc, by rw [hb]; exact hf, hg⟩
          · exact hntsall t hmem
        · intro vt' hvt' tn htn
          rcases List.mem_cons.mp hvt' with rfl | hmem
          · have : tn ∈ ts.map (fun t => t.displayName) := hmap ▸ htn
            obtain ⟨t, htmem, htdn⟩ := List.mem_map.mp this
            obtain ⟨_, hb, _, _, _, _, _⟩ := hall t htmem
            exact ⟨t, List.mem_append.mpr (Or.inl htmem), hb, htdn⟩
          · obtain ⟨t, htmem, h1, h2⟩ := hntscov vt' hmem tn htn
            exact ⟨t, List.mem_append.mpr (Or.inr htmem), h1, h2⟩

theorem FinalizePatch_ok {p : Patch} {env : Env} {st st' : Store}
    {v : Version} {p' : Patch}
    (h : FinalizePatch p env st = (st', Except.ok (v, p'))) :
    v.id = p.id ++ "_0" ∧
    v.buildIds = p.variantsTasks.map
      (fun vt => buildIdFor (p.id ++ "_0") vt.variant) ∧
    v.buildVariants = p.variantsTasks.map (fun vt =>
      BuildStatus.mk vt.variant true (buildIdFor (p.id ++ "_0") vt.variant)) ∧
    p' = p.SetActivated v.id ∧
    st'.versions = st.versions ++ [v] ∧
    (∃ nbs, st'.builds = st.builds ++ nbs ∧
      nbs.map (fun b => b.buildVariant) =
        p.variantsTasks.map (fun vt => vt.variant) ∧
      nbs.map (fun b => b.id) = p.variantsTasks.map
        (fun vt => buildIdFor (p.id ++ "_0") vt.variant) ∧
      ∀ b ∈ nbs, b.activated = true ∧ b.version = p.id ++ "_0") ∧
    ∃ nts, st'.tasks = st.tasks ++ nts ∧
      (∀ t ∈ nts, t.version = p.id ++ "_0" ∧ t.activated = true ∧
        tableLookup (tableFor (p.id ++ "_0") (patchKnownPairs p))
          (TVPair.mk t.buildVariant t.displayName) = some t.id ∧
        ∀ d ∈ t.dependsOn, ∃ q,
          tableLookup (tableFor (p.id ++ "_0") (patchKnownPairs p)) q =
            some d) ∧
      ∀ vt ∈ p.variantsTasks, ∀ tn ∈ vt.tasks, ∃ t ∈ nts,
        t.buildVariant = vt.variant ∧ t.displayName = tn := by
  unfold FinalizePatch at h
  cases hpr : env.projectRef with
  | none => rw [hpr] at h; simp at h
  | some pr =>
    rw [hpr] at h
    dsimp only at h
    cases hgc : env.gitCommit with
    | none => rw [hgc] at h; simp at h
    | some gc =>
      rw [hgc] at h
      dsimp only at h
      rcases hfb : finalizeBuilds p.patchedConfig
          (NewPatchTaskIdTable p.patchedConfig
            (Version.mk (p.id ++ "_0") p.project p.githash gc.author
              gc.authorEmail gc.message [] [] "created") p)
          p.variantsTasks
          (Version.mk (p.id ++ "_0") p.project p.githash gc.author
            gc.authorEmail gc.message [] [] "created") st with ⟨st1, r⟩
      cases r with
      | error e => rw [hfb] at h; dsimp only at h; simp at h
      | ok pv =>
        rw [hfb] at h
        dsimp only at h
        have hst : st1.insertVersion pv = st' := congrArg Prod.fst h
        have hvp : (Except.ok (pv, p.SetActivated pv.id) :
            Except EngineError (Version × Patch)) = Except.ok (v, p') :=
          congrArg Prod.snd h
        injection hvp with hvp
        have hv : pv = v := congrArg Prod.fst hvp
        have hp' : p.SetActivated pv.id = p' := congrArg Prod.snd hvp
        subst hv
        obtain ⟨⟨hid, _, _, _, _, _, _⟩, hbids, hbvs, hvers,
          ⟨nbs, hnbs, hnbsv, hnbsid, hnbsall⟩,
          nts, hnts, hntsall, hntscov⟩ := finalizeBuilds_ok hfb
        refine ⟨hid, by simpa using hbids, by simpa using hbvs,
          by rw [← hp', hid], ?_, ?_, ?_⟩
        · rw [← hst]
          show st1.versions ++ [pv] = st.versions ++ [pv]
          rw [hvers]
        · refine ⟨nbs, ?_, hnbsv, by simpa using hnbsid, ?_⟩
          · rw [← hst]
            show st1.builds = st.builds ++ nbs
            exact hnbs
          · intro b hb
            obtain ⟨h1, h2⟩ := hnbsall b hb
            exact ⟨h1, by simpa using h2⟩
        · refine ⟨nts, ?_, ?_, hntscov⟩
          · rw [← hst]
            show st1.tasks = st.tasks ++ nts
            exact hnts
          · intro t ht
            obtain ⟨h1, h2, h3, h4⟩ := hntsall t ht
            exact ⟨by simpa using h1, h2, by simpa using h3, by simpa using h4⟩

/-- C2 counterexample: the dependency closure of `p2.VariantsTasks`
contains `(linux, compile)`, yet `FinalizePatch p2` succeeds while
materializing only the `test` task — it computes no closure, so the
Version's builds do not cover the closure and the `compile` task is never
created (its id is even referenced by the `test` task's `DependsOn`). -/
theorem c2_counterexample :
    IncludePatchDependencies demoProject
        (VariantTasksToTVPairs p2.variantsTasks) =
      Except.ok [TVPair.mk "linux" "test", TVPair.mk "linux" "compile"] ∧
    (FinalizePatch p2 env0 store0).2.map (fun r => r.1.buildIds) =
      Except.ok ["p2_0_linux"] ∧
    (FinalizePatch p2 env0 store0).1.tasks.map (fun t => t.displayName) =
      ["test"] ∧
    (FinalizePatch p2 env0 store0).1.tasks.map (fun t => t.dependsOn) =
      [["p2_0_linux_compile"]] :=
  ⟨by rfl, by rfl, by rfl, by rfl⟩

/-- C2 (amended): FinalizePatch computes no dependency closure; it builds
the Task-ID table once from the patch's known pairs and materializes
exactly the entries of `patch.VariantsTasks` — one Build per entry with
`activated = true`, the Build ids collected in order into the new Version
record (which is inserted into the store) — and finally links the patch to
the Version (setting `patch.Version` to the Version's id) via
`SetActivated`. -/
theorem c2_finalize_materializes_variantstasks (p : Patch) (env : Env)
    (st st' : Store) (v : Version) (p' : Patch)
    (h : FinalizePatch p env st = (st', Except.ok (v, p'))) :
    v.id = p.id ++ "_0" ∧
    v.buildIds = p.variantsTasks.map
      (fun vt => buildIdFor (p.id ++ "_0") vt.variant) ∧
    v.buildVariants = p.variantsTasks.map (fun vt =>
      BuildStatus.mk vt.variant true (buildIdFor (p.id ++ "_0") vt.variant)) ∧
    p'.version = v.id ∧ p'.activated = true ∧
    st'.versions = st.versions ++ [v] ∧
    ∃ nbs, st'.builds = st.builds ++ nbs ∧
      nbs.map (fun b => b.buildVariant) =
        p.variantsTasks.map (fun vt => vt.variant) ∧
      ∀ b ∈ nbs, b.activated = true ∧ b.version = v.id := by
  obtain ⟨hid, hbids, hbvs, hp', hvers, ⟨nbs, h1, h2, _, h4⟩, _⟩ :=
    FinalizePatch_ok h
  subst hp'
  refine ⟨hid, hbids, hbvs, rfl, rfl, hvers, nbs, h1, h2, ?_⟩
  intro b hb
  obtain ⟨ha, hv⟩ := h4 b hb
  exact ⟨ha, by rw [hv, hid]⟩

/-- Witness for C2's amended theorem: finalizing the pending patch `p4`
produces the expected Version, Build and linkage concretely. -/
theorem c2_finalize_materializes_variantstasks_witness :
    v4out.id = p4.id ++ "_0" ∧
    v4out.buildIds = p4.variantsTasks.map
      (fun vt => buildIdFor (p4.id ++ "_0") vt.variant) ∧
    v4out.buildVariants = p4.variantsTasks.map (fun vt =>
      BuildStatus.mk vt.variant true (buildIdFor (p4.id ++ "_0") vt.variant)) ∧
    (p4.SetActivated "p4_0").version = v4out.id ∧
    (p4.SetActivated "p4_0").activated = true ∧
    st4out.versions = store0.versions ++ [v4out] ∧
    ∃ nbs, st4out.builds = store0.builds ++ nbs ∧
      nbs.map (fun b => b.buildVariant) =
        p4.variantsTasks.map (fun vt => vt.variant) ∧
      ∀ b ∈ nbs, b.activated = true ∧ b.version = v4out.id :=
  c2_finalize_materializes_variantstasks p4 env0 store0 st4out v4out
    (p4.SetActivated "p4_0") (by rfl)

theorem AddTasksToBuild_ok {b : Build} {project : Project} {v : Version}
    {taskNames : List String} {st st' : Store} {b' : Build}
    (h : AddTasksToBuild b project v taskNames st = (st', Except.ok b')) :
    ∃ bv ts, project.findVariant b.buildVariant = some bv ∧
      mkTasks project v
        (tableFor v.id (versionPairs st v.id ++
          (taskNames.filter (fun t => bv.taskNames.contains t)).map
            (fun t => TVPair.mk b.buildVariant t)))
        b.id b.buildVariant b.activated
        (taskNames.filter (fun t => bv.taskNames.contains t)) =
        Except.ok ts ∧
      st' = (st.pushTasksToBuild b.id (ts.map (fun t => t.id))).insertTasks ts := by
  unfold AddTasksToBuild at h
  cases hfv : project.findVariant b.buildVariant with
  | none => rw [hfv] at h; simp at h
  | some bv =>
    rw [hfv] at h
    dsimp only at h
    cases hmks : mkTasks project v
        (tableFor v.id (versionPairs st v.id ++
          (taskNames.filter (fun t => bv.taskNames.contains t)).map
            (fun t => TVPair.mk b.buildVariant t)))
        b.id b.buildVariant b.activated
        (taskNames.filter (fun t => bv.taskNames.contains t)) with
    | error e => rw [hmks] at h; simp at h
    | ok ts =>
      rw [hmks] at h
      dsimp only at h
      have h1 := congrArg Prod.fst h
      exact ⟨bv, ts, rfl, hmks, h1.symm⟩

theorem mem_versionPairs {st : Store} {vid : String} {q : TVPair}
    (h : q ∈ versionPairs st vid) :
    ∃ t ∈ st.tasks, t.version = vid ∧
      q = TVPair.mk t.buildVariant t.displayName := by
  unfold versionPairs at h
  obtain ⟨t, ht, heq⟩ := List.mem_map.mp h
  have hf := List.mem_filter.mp ht
  exact ⟨t, hf.1, by simpa using hf.2, heq.symm⟩

theorem mem_vtPairs {vts : List VariantTasks} {q : TVPair}
    (h : q ∈ VariantTasksToTVPairs vts) :
    ∃ vt ∈ vts, vt.variant = q.variant ∧ q.taskName ∈ vt.tasks := by
  unfold VariantTasksToTVPairs at h
  obtain ⟨vt, hvt, hq⟩ := List.mem_flatMap.mp h
  obtain ⟨tn, htn, heq⟩ := List.mem_map.mp hq
  subst heq
  exact ⟨vt, hvt, rfl, htn⟩

theorem addBuildsLoop_ok {project : Project} {tt : TaskIdTable}
    {activ : Bool} {tasks : List String} :
    ∀ {bvNames : List String} {pv : Version} {bids : List String}
      {bss : List BuildStatus} {st st' : Store}
      {res : Version × List String × List BuildStatus},
      addBuildsLoop project tt activ tasks bvNames pv bids bss st =
        (st', Except.ok res) →
      ∃ nts, st'.tasks = st.tasks ++ nts ∧
        (∀ t ∈ nts, t.version = pv.id ∧
          tableLookup tt (TVPair.mk t.buildVariant t.displayName) =
            some t.id ∧
          ∀ d ∈ t.dependsOn, ∃ q, tableLookup tt q = some d) ∧
        ∀ bvName ∈ bvNames, ∀ tn ∈ tasks, ∃ t ∈ nts,
          t.buildVariant = bvName ∧ t.displayName = tn := by
  intro bvNames
  induction bvNames with
  | nil =>
    intro pv bids bss st st' res h
    unfold addBuildsLoop at h
    have h1 : st = st' := congrArg Prod.fst h
    subst h1
    refine ⟨[], by simp, ?_, ?_⟩
    · intro t ht; cases ht
    · intro bvName hbv; cases hbv
  | cons bvName rest ih =>
    intro pv bids bss st st' res h
    unfold addBuildsLoop at h
    rcases hcb : CreateBuildFromVersion project pv tt bvName activ tasks st
      with ⟨st1, r⟩
    rw [hcb] at h
    cases r with
    | error e => dsimp only at h; simp at h
    | ok buildId =>
      dsimp only at h
      obtain ⟨hbid, ts, hmks, hv1, hb1, ht1⟩ := CreateBuild_ok hcb
      obtain ⟨nts, hnts, hntsall, hntscov⟩ := ih h
      obtain ⟨hmap, hall⟩ := mkTasks_ok hmks
      refine ⟨ts ++ nts, ?_, ?_, ?_⟩
      · rw [hnts, ht1]
        simp [List.append_assoc]
      · intro t ht
        rcases List.mem_append.mp ht with hmem | hmem
        · obtain ⟨ha, hb, _, _, _, hf, hg⟩ := hall t hmem
          exact ⟨ha, by rw [hb]; exact hf, hg⟩
        · exact hntsall t hmem
      · intro bv' hbv' tn htn
        rcases List.mem_cons.mp hbv' with rfl | hmem
        · have htn' : tn ∈ ts.map (fun t => t.displayName) := hmap ▸ htn
          obtain ⟨t, htmem, htdn⟩ := List.mem_map.mp htn'
          obtain ⟨_, hb, _, _, _, _, _⟩ := hall t htmem
          exact ⟨t, List.mem_append.mpr (Or.inl htmem), hb, htdn⟩
        · obtain ⟨t, htmem, h1, h2⟩ := hntscov bv' hmem tn htn
          exact ⟨t, List.mem_append.mpr (Or.inr htmem), h1, h2⟩

theorem AddNewBuildsForPatch_ok {p : Patch} {v : Version}
    {project : Project} {bvs : List String} {st st' : Store} {p1 : Patch}
    {v2 : Version}
    (h : AddNewBuildsForPatch p v project bvs st = (p1, st', Except.ok v2)) :
    ∃ nts, st'.tasks = st.tasks ++ nts ∧
      (∀ t ∈ nts, t.version = v.id ∧
        ∀ d ∈ t.dependsOn, ∃ q ∈ patchKnownPairs (p.AddBuildVariants bvs),
          d = taskIdFor v.id q.variant q.taskName) ∧
      ∀ bvName ∈ bvs.filter (fun x => !(p.buildVariants.contains x)),
        ∀ tn ∈ (p.AddBuildVariants bvs).tasks, ∃ t ∈ nts,
          t.buildVariant = bvName ∧ t.displayName = tn ∧
          t.id = taskIdFor v.id bvName tn := by
  unfold AddNewBuildsForPatch at h
  dsimp only at h
  rcases haux : addBuildsLoop project
      (NewPatchTaskIdTable project v (p.AddBuildVariants bvs))
      (p.AddBuildVariants bvs).activated (p.AddBuildVariants bvs).tasks
      (bvs.filter (fun x => !(p.buildVariants.contains x))) v [] [] st
    with ⟨st1, r⟩
  rw [haux] at h
  cases r with
  | error e => dsimp only at h; simp at h
  | ok triple =>
    rcases triple with ⟨pv, bids, bss⟩
    dsimp only at h
    have hst' : st1.pushBuildsToVersion v.id bids bss = st' :=
      congrArg (fun x => x.2.1) h
    obtain ⟨nts, hnts, hntsall, hntscov⟩ := addBuildsLoop_ok haux
    refine ⟨nts, ?_, ?_, ?_⟩
    · rw [← hst']
      show st1.tasks = st.tasks ++ nts
      exact hnts
    · intro t ht
      obtain ⟨h1, _, h3⟩ := hntsall t ht
      refine ⟨h1, ?_⟩
      intro d hd
      obtain ⟨q, hq⟩ := h3 d hd
      have hsome := tableLookup_tableFor_some (q := q) (s := d) hq
      exact ⟨q, hsome.1, hsome.2⟩
    · intro bvName hbv tn htn
      obtain ⟨t, htmem, h1, h2⟩ := hntscov bvName hbv tn htn
      obtain ⟨_, hlook, _⟩ := hntsall t htmem
      have hq : tableLookup
          (tableFor v.id (patchKnownPairs (p.AddBuildVariants bvs)))
          (TVPair.mk bvName tn) = some t.id := by
        rw [← h1, ← h2]
        exact hlook
      have hid := (tableLookup_tableFor_some hq).2
      exact ⟨t, htmem, h1, h2, hid⟩

/-- C4 (amended): no dangling `DependsOn` edge is persisted when the
allocator's domain coincides with what is materialized.  For Finalize:
when the patch's known pairs all lie in its `VariantsTasks`, every
dependency id of every Task created by a successful `FinalizePatch`
belongs to a Task materialized for the same version.  For Extend, when the
store's existing tasks of the version carry the allocator's deterministic
ids: every dependency id of every Task created by a successful
`AddTasksToBuild` (extend-in-place) belongs to a Task of the same version
(pre-existing or created in the same call); and every dependency id of
every Task created by a successful `AddNewBuildsForPatch` (new builds)
does too, provided additionally that each of the updated patch's known
pairs is either already materialized in the store for this version or
lies in the newly created variants with the patch's task list.  In each
path a dependency that cannot be resolved through the id table is
rejected at resolve time, failing the call before that build's records
are written. -/
theorem c4_no_dangling_deps :
    (∀ (p : Patch) (env : Env) (st st' : Store) (v : Version) (p' : Patch),
      (∀ q ∈ patchKnownPairs p, q ∈ VariantTasksToTVPairs p.variantsTasks) →
      FinalizePatch p env st = (st', Except.ok (v, p')) →
      ∀ t ∈ st'.tasks, t ∉ st.tasks → ∀ d ∈ t.dependsOn,
        ∃ t2 ∈ st'.tasks, t2.id = d ∧ t2.version = v.id) ∧
    (∀ (b : Build) (project : Project) (v : Version)
      (taskNames : List String) (st st' : Store) (b' : Build),
      (∀ t ∈ st.tasks, t.version = v.id →
        t.id = taskIdFor v.id t.buildVariant t.displayName) →
      AddTasksToBuild b project v taskNames st = (st', Except.ok b') →
      ∀ t ∈ st'.tasks, t ∉ st.tasks → ∀ d ∈ t.dependsOn,
        ∃ t2 ∈ st'.tasks, t2.id = d ∧ t2.version = v.id) ∧
    ∀ (p : Patch) (v : Version) (project : Project) (bvs : List String)
      (st st' : Store) (p1 : Patch) (v2 : Version),
      (∀ t ∈ st.tasks, t.version = v.id →
        t.id = taskIdFor v.id t.buildVariant t.displayName) →
      (∀ q ∈ patchKnownPairs (p.AddBuildVariants bvs),
        (∃ t0 ∈ st.tasks, t0.version = v.id ∧
          t0.buildVariant = q.variant ∧ t0.displayName = q.taskName) ∨
        (q.variant ∈ bvs.filter (fun x => !(p.buildVariants.contains x)) ∧
          q.taskName ∈ (p.AddBuildVariants bvs).tasks)) →
      AddNewBuildsForPatch p v project bvs st = (p1, st', Except.ok v2) →
      ∀ t ∈ st'.tasks, t ∉ st.tasks → ∀ d ∈ t.dependsOn,
        ∃ t2 ∈ st'.tasks, t2.id = d ∧ t2.version = v.id := by
  refine ⟨?_, ?_, ?_⟩
  · intro p env st st' v p' hcoh h t ht htnew d hd
    obtain ⟨hid, _, _, _, _, _, nts, hnts, hntsall, hntscov⟩ :=
      FinalizePatch_ok h
    have htmem : t ∈ nts := by
      rw [hnts] at ht
      rcases List.mem_append.mp ht with hmem | hmem
      · exact absurd hmem htnew
      · exact hmem
    obtain ⟨_, _, _, hdeps⟩ := hntsall t htmem
    obtain ⟨q, hq⟩ := hdeps d hd
    obtain ⟨hqmem, hqid⟩ := tableLookup_tableFor_some hq
    obtain ⟨vt, hvt, hvvar, hvtn⟩ := mem_vtPairs (hcoh q hqmem)
    obtain ⟨t2, ht2mem, ht2bv, ht2dn⟩ := hntscov vt hvt q.taskName hvtn
    obtain ⟨ht2v, _, ht2look, _⟩ := hntsall t2 ht2mem
    have hqpair : TVPair.mk t2.buildVariant t2.displayName = q := by
      rw [ht2bv, hvvar, ht2dn]
    rw [hqpair] at ht2look
    have ht2id := (tableLookup_tableFor_some ht2look).2
    refine ⟨t2, ?_, by rw [ht2id, ← hqid], by rw [ht2v, hid]⟩
    rw [hnts]
    exact List.mem_append.mpr (Or.inr ht2mem)
  · intro b project v taskNames st st' b' hst h t ht htnew d hd
    obtain ⟨bv, ts, hfv, hmks, hsteq⟩ := AddTasksToBuild_ok h
    have htasks : st'.tasks = st.tasks ++ ts := by rw [hsteq]; rfl
    have htmem : t ∈ ts := by
      rw [htasks] at ht
      rcases List.mem_append.mp ht with hmem | hmem
      · exact absurd hmem htnew
      · exact hmem
    obtain ⟨hmap, hall⟩ := mkTasks_ok hmks
    obtain ⟨_, _, _, _, _, _, hdeps⟩ := hall t htmem
    obtain ⟨q, hq⟩ := hdeps d hd
    obtain ⟨hqmem, hqid⟩ := tableLookup_tableFor_some hq
    rcases List.mem_append.mp hqmem with hold | hnew2
    · obtain ⟨t0, ht0, ht0v, hq0⟩ := mem_versionPairs hold
      refine ⟨t0, ?_, ?_, ht0v⟩
      · rw [htasks]
        exact List.mem_append.mpr (Or.inl ht0)
      · rw [hst t0 ht0 ht0v, hqid, hq0]
    · obtain ⟨tn, htn, hqeq⟩ := List.mem_map.mp hnew2
      have htn' : tn ∈ ts.map (fun t => t.displayName) := hmap ▸ htn
      obtain ⟨t2, ht2mem, ht2dn⟩ := List.mem_map.mp htn'
      obtain ⟨ht2v, _, _, _, _, ht2look, _⟩ := hall t2 ht2mem
      have hlq : tableLookup (tableFor v.id (versionPairs st v.id ++
          (taskNames.filter (fun t => bv.taskNames.contains t)).map
            (fun t => TVPair.mk b.buildVariant t))) q = some t2.id := by
        rw [← hqeq, ← ht2dn]
        exact ht2look
      have ht2id := (tableLookup_tableFor_some hlq).2
      refine ⟨t2, ?_, by rw [ht2id, ← hqid], ht2v⟩
      rw [htasks]
      exact List.mem_append.mpr (Or.inr ht2mem)
  · intro p v project bvs st st' p1 v2 hst hcov h t ht htnew d hd
    obtain ⟨nts, hnts, hntsall, hntscov⟩ := AddNewBuildsForPatch_ok h
    have htmem : t ∈ nts := by
      rw [hnts] at ht
      rcases List.mem_append.mp ht with hmem | hmem
      · exact absurd hmem htnew
      · exact hmem
    obtain ⟨_, hdeps⟩ := hntsall t htmem
    obtain ⟨q, hqmem, hqid⟩ := hdeps d hd
    rcases hcov q hqmem with ⟨t0, ht0, ht0v, ht0bv, ht0dn⟩ | ⟨hqv, hqt⟩
    · refine ⟨t0, ?_, ?_, ht0v⟩
      · rw [hnts]
        exact List.mem_append.mpr (Or.inl ht0)
      · rw [hst t0 ht0 ht0v, ht0bv, ht0dn, hqid]
    · obtain ⟨t2, ht2mem, ht2bv, ht2dn, ht2id⟩ :=
        hntscov q.variant hqv q.taskName hqt
      refine ⟨t2, ?_, ?_, (hntsall t2 ht2mem).1⟩
      · rw [hnts]
        exact List.mem_append.mpr (Or.inr ht2mem)
      · rw [ht2id, hqid]

/-- Witness for C4: finalizing `p4` persists the `test` task whose single
dependency id names the `compile` task materialized for the same version;
extending `b8` in place with `test` persists a task whose dependency id
names the pre-existing `compile` task of the same version; and extending
`p9` with the new `osx` build persists an `osx` `test` task whose
dependency id names the `osx` `compile` task created in the same call. -/
theorem c4_no_dangling_deps_witness :
    (∃ t2 ∈ st4out.tasks, t2.id = "p4_0_linux_compile" ∧ t2.version = v4out.id) ∧
    (∃ t2 ∈ st8a.tasks, t2.id = "v1_linux_compile" ∧ t2.version = v8.id) ∧
    ∃ t2 ∈ st9out.tasks, t2.id = "v9_osx_compile" ∧ t2.version = v9.id :=
  ⟨c4_no_dangling_deps.1 p4 env0 store0 st4out v4out
      (p4.SetActivated "p4_0") (by decide) (by rfl) t4test (by decide)
      (by decide) "p4_0_linux_compile" (by decide),
    c4_no_dangling_deps.2.1 b8 demoProject v8 ["test"] st8 st8a
      (Build.mk "v1_linux" "v1" "linux"
        ["v1_linux_compile", "v1_linux_test"] true)
      (by decide) (by rfl) t8test (by decide) (by decide)
      "v1_linux_compile" (by decide),
    c4_no_dangling_deps.2.2 p9 v9 demoProject2 ["osx"] st9 st9out p9b v9ret
      (by decide) (by decide) (by rfl) t9osxtest (by decide) (by decide)
      "v9_osx_compile" (by decide)⟩

/-- C4 counterexample: finalizing `p2` — whose legacy `Tasks` list still
mentions `compile` while `VariantsTasks` requests only `test` — persists
the `test` task with the dependency id `p2_0_linux_compile`, although no
task with that id is materialized for the version: a Task with a dangling
`DependsOn` edge is persisted, because the id table resolves the edge from
the patch's known pairs rather than from what is actually materialized. -/
theorem c4_counterexample :
    (FinalizePatch p2 env0 store0).1.tasks.map
        (fun t => (t.displayName, t.dependsOn)) =
      [("test", ["p2_0_linux_compile"])] ∧
    (FinalizePatch p2 env0 store0).1.tasks.all
      (fun t => !(t.id == "p2_0_linux_compile")) = true :=
  ⟨by rfl, by rfl⟩

theorem AddNewTasksForPatch_patch (p : Patch) (v : Version)
    (project : Project) (tns : List String) (st : Store) :
    (AddNewTasksForPatch p v project tns st).1 = p.AddTasks tns := by
  unfold AddNewTasksForPatch
  by_cases h : (tns.filter (fun t => !(p.tasks.contains t))).length > 0
  · rw [if_pos h]
  · rw [if_neg h]

theorem AddNewBuildsForPatch_patch (p : Patch) (v : Version)
    (project : Project) (bvs : List String) (st : Store) :
    (AddNewBuildsForPatch p v project bvs st).1 = p.AddBuildVariants bvs := by
  unfold AddNewBuildsForPatch
  dsimp only
  rcases haux : addBuildsLoop project
      (NewPatchTaskIdTable project v (p.AddBuildVariants bvs))
      (p.AddBuildVariants bvs).activated (p.AddBuildVariants bvs).tasks
      (bvs.filter (fun x => !(p.buildVariants.contains x))) v [] [] st
    with ⟨st1, r⟩
  rcases r with e | ⟨pv, bids, bss⟩
  · rfl
  · rfl

theorem AddNewTasksForPatch_noop (p : Patch) (v : Version)
    (project : Project) (tns : List String) (st : Store)
    (h : ∀ x ∈ tns, x ∈ p.tasks) :
    AddNewTasksForPatch p v project tns st = (p, st, Except.ok ()) := by
  have hfil : tns.filter (fun t => !(p.tasks.contains t)) = [] := by
    rw [List.filter_eq_nil_iff]
    intro t ht
    simp [h t ht]
  have haddnew : p.AddTasks tns = p := by
    unfold Patch.AddTasks
    rw [addNew_eq_self tns p.tasks h]
  unfold AddNewTasksForPatch
  rw [hfil, haddnew]
  simp

theorem pushBuildsToVersion_nil (st : Store) (vid : String) :
    st.pushBuildsToVersion vid [] [] = st := by
  unfold Store.pushBuildsToVersion
  cases st with
  | mk vs bs ts =>
    simp only [Store.mk.injEq, and_true]
    have hfun : ∀ w : Version, (if w.id == vid then
        Version.mk w.id w.identifier w.revision w.author w.authorEmail
          w.message (w.buildIds ++ []) (w.buildVariants ++ []) w.status
      else w) = w := by
      intro w
      by_cases hw : w.id == vid <;> simp [hw]
    calc vs.map _ = vs.map id := List.map_congr_left (fun w _ => hfun w)
      _ = vs := List.map_id vs

theorem AddNewBuildsForPatch_noop (p : Patch) (w : Version)
    (project : Project) (bvs : List String) (st : Store)
    (h : ∀ x ∈ bvs, x ∈ p.buildVariants) :
    AddNewBuildsForPatch p w project bvs st = (p, st, Except.ok w) := by
  have hfil : bvs.filter (fun x => !(p.buildVariants.contains x)) = [] := by
    rw [List.filter_eq_nil_iff]
    intro x hx
    simp [h x hx]
  have haddnew : p.AddBuildVariants bvs = p := by
    unfold Patch.AddBuildVariants
    rw [addNew_eq_self bvs p.buildVariants h]
  unfold AddNewBuildsForPatch
  rw [hfil, haddnew]
  show (p, st.pushBuildsToVersion w.id [] [], Except.ok w) = _
  rw [pushBuildsToVersion_nil]

/-- C3 counterexample: extending `p3` with variants `[bogus, linux]` fails
on `bogus` before creating anything, yet already updated
`patch.BuildVariants` to the full union — not after success as claimed —
and a re-run with the same request derives an empty missing set and
creates no build at all, even though the perfectly creatable `linux` build
is still missing. -/
theorem c3_counterexample :
    AddNewBuildsForPatch p3 v3 demoProject ["bogus", "linux"] store0 =
      (p3a, store0, Except.error (EngineError.unknownVariant "bogus")) ∧
    p3a.buildVariants = ["bogus", "linux"] ∧
    store0.builds = [] ∧
    (AddNewBuildsForPatch p3a v3 demoProject
      ["bogus", "linux"] store0).2.1.builds = [] :=
  ⟨by rfl, by rfl, by rfl, by rfl⟩

/-- C3 (amended): Extend computes `newTasks`/`newVariants` as the requested
names not already in `patch.Tasks`/`patch.BuildVariants` and creates only
those missing records, but it updates the patch's lists to the union
BEFORE attempting any creation — also when creation then fails — so
re-running Extend with the same request after a partial failure computes
an empty missing set and is a complete no-op: it creates none of the
still-missing records (and, in particular, no duplicates). -/
theorem c3_extend_updates_patch_before_creation (p : Patch) (v w : Version)
    (project : Project) (tns bvs : List String) (st : Store) :
    ((AddNewTasksForPatch p v project tns st).1 = p.AddTasks tns ∧
      (p.AddTasks tns).tasks = addNew p.tasks tns) ∧
    ((AddNewBuildsForPatch p v project bvs st).1 = p.AddBuildVariants bvs ∧
      (p.AddBuildVariants bvs).buildVariants = addNew p.buildVariants bvs) ∧
    (∀ (p1 : Patch) (st1 : Store) (r : Except EngineError Unit),
      AddNewTasksForPatch p v project tns st = (p1, st1, r) →
      AddNewTasksForPatch p1 w project tns st1 = (p1, st1, Except.ok ())) ∧
    ∀ (p1 : Patch) (st1 : Store) (r : Except EngineError Version),
      AddNewBuildsForPatch p v project bvs st = (p1, st1, r) →
      AddNewBuildsForPatch p1 w project bvs st1 = (p1, st1, Except.ok w) := by
  refine ⟨⟨AddNewTasksForPatch_patch p v project tns st, rfl⟩,
    ⟨AddNewBuildsForPatch_patch p v project bvs st, rfl⟩, ?_, ?_⟩
  · intro p1 st1 r h
    have hp1 : p1 = p.AddTasks tns := by
      have := AddNewTasksForPatch_patch p v project tns st
      rw [h] at this
      exact this
    have hsub : ∀ x ∈ tns, x ∈ p1.tasks := by
      intro x hx
      rw [hp1]
      show x ∈ addNew p.tasks tns
      exact (mem_addNew tns p.tasks x).mpr (Or.inr hx)
    exact AddNewTasksForPatch_noop p1 w project tns st1 hsub
  · intro p1 st1 r h
    have hp1 : p1 = p.AddBuildVariants bvs := by
      have := AddNewBuildsForPatch_patch p v project bvs st
      rw [h] at this
      exact this
    have hsub : ∀ x ∈ bvs, x ∈ p1.buildVariants := by
      intro x hx
      rw [hp1]
      show x ∈ addNew p.buildVariants bvs
      exact (mem_addNew bvs p.buildVariants x).mpr (Or.inr hx)
    exact AddNewBuildsForPatch_noop p1 w project bvs st1 hsub

/-- Witness for C3's amended theorem at the failure scenario: the failing
call already recorded the union on the patch, and the re-run is a no-op. -/
theorem c3_extend_updates_patch_before_creation_witness :
    (AddNewBuildsForPatch p3 v3 demoProject ["bogus", "linux"] store0).1 =
      p3.AddBuildVariants ["bogus", "linux"] ∧
    AddNewBuildsForPatch p3a v3 demoProject ["bogus", "linux"] store0 =
      (p3a, store0, Except.ok v3) :=
  ⟨(c3_extend_updates_patch_before_creation p3 v3 v3 demoProject []
      ["bogus", "linux"] store0).2.1.1,
    (c3_extend_updates_patch_before_creation p3 v3 v3 demoProject []
      ["bogus", "linux"] store0).2.2.2 p3a store0
      (Except.error (EngineError.unknownVariant "bogus")) (by rfl)⟩

/-- C8: once a first Extend round (new tasks, then new builds) has
succeeded, running the same requests again is a complete no-op — the
missing-set recompute yields empty, no Build or Task record is created,
and the persisted patch and store are exactly those after the first
round. -/
theorem c8_extend_twice_noop (p p1 p2 : Patch) (v w : Version)
    (project : Project) (tns bvs : List String) (st st1 st2 : Store)
    (v2 : Version)
    (h1 : AddNewTasksForPatch p v project tns st = (p1, st1, Except.ok ()))
    (h2 : AddNewBuildsForPatch p1 v project bvs st1 =
      (p2, st2, Except.ok v2)) :
    AddNewTasksForPatch p2 w project tns st2 = (p2, st2, Except.ok ()) ∧
    AddNewBuildsForPatch p2 w project bvs st2 = (p2, st2, Except.ok w) := by
  have hp1 : p1 = p.AddTasks tns := by
    have := AddNewTasksForPatch_patch p v project tns st
    rw [h1] at this
    exact this
  have hp2 : p2 = p1.AddBuildVariants bvs := by
    have := AddNewBuildsForPatch_patch p1 v project bvs st1
    rw [h2] at this
    exact this
  have htns : ∀ x ∈ tns, x ∈ p2.tasks := by
    intro x hx
    rw [hp2]
    show x ∈ p1.tasks
    rw [hp1]
    show x ∈ addNew p.tasks tns
    exact (mem_addNew tns p.tasks x).mpr (Or.inr hx)
  have hbvs : ∀ x ∈ bvs, x ∈ p2.buildVariants := by
    intro x hx
    rw [hp2]
    show x ∈ addNew p1.buildVariants bvs
    exact (mem_addNew bvs p1.buildVariants x).mpr (Or.inr hx)
  exact ⟨AddNewTasksForPatch_noop p2 w project tns st2 htns,
    AddNewBuildsForPatch_noop p2 w project bvs st2 hbvs⟩

/-- Witness for C8 at the concrete extend scenario: the second round over
the same requests leaves patch and store untouched. -/
theorem c8_extend_twice_noop_witness :
    AddNewTasksForPatch p8a v8 demoProject ["test"] st8a =
      (p8a, st8a, Except.ok ()) ∧
    AddNewBuildsForPatch p8a v8 demoProject ["linux"] st8a =
      (p8a, st8a, Except.ok v8) :=
  c8_extend_twice_noop p8 p8a p8a v8 v8 demoProject ["test"] ["linux"]
    st8 st8a st8a v8 (by rfl) (by rfl)

theorem listGrows_refl {α : Type} (R : α → α → Prop) (hR : ∀ a, R a a)
    (l : List α) : listGrows R l l :=
  ⟨Nat.le_refl _, fun _ _ _ => hR _⟩

theorem listGrows_trans {α : Type} (R : α → α → Prop)
    (hR : ∀ a b c, R a b → R b c → R a c) {l1 l2 l3 : List α}
    (h12 : listGrows R l1 l2) (h23 : listGrows R l2 l3) :
    listGrows R l1 l3 :=
  ⟨Nat.le_trans h12.1 h23.1, fun i h h' =>
    hR _ _ _ (h12.2 i h (Nat.lt_of_lt_of_le h h12.1))
      (h23.2 i (Nat.lt_of_lt_of_le h h12.1) h')⟩

theorem listGrows_append {α : Type} (R : α → α → Prop) (hR : ∀ a, R a a)
    (l app : List α) : listGrows R l (l ++ app) := by
  refine ⟨by simp, ?_⟩
  intro i h h'
  have hg : (l ++ app).get ⟨i, h'⟩ = l.get ⟨i, h⟩ := by
    rw [List.get_eq_getElem, List.get_eq_getElem, List.getElem_append_left]
  rw [hg]
  exact hR _

theorem listGrows_map {α : Type} (R : α → α → Prop) (f : α → α)
    (hf : ∀ a, R a (f a)) (l : List α) : listGrows R l (l.map f) := by
  refine ⟨by simp, ?_⟩
  intro i h h'
  have hg : (l.map f).get ⟨i, h'⟩ = f (l.get ⟨i, h⟩) := by
    simp
  rw [hg]
  exact hf _

theorem buildGrows_refl (b : Build) : buildGrows b b :=
  ⟨rfl, rfl, rfl, rfl, [], by simp⟩

theorem buildGrows_trans (a b c : Build) (hab : buildGrows a b)
    (hbc : buildGrows b c) : buildGrows a c := by
  obtain ⟨h1, h2, h3, h4, app1, h5⟩ := hab
  obtain ⟨g1, g2, g3, g4, app2, g5⟩ := hbc
  exact ⟨g1.trans h1, g2.trans h2, g3.trans h3, g4.trans h4, app1 ++ app2,
    by rw [g5, h5, List.append_assoc]⟩

theorem versionGrows_refl (v : Version) : versionGrows v v :=
  ⟨rfl, rfl, rfl, rfl, rfl, rfl, rfl, ⟨[], by simp⟩, [], by simp⟩

theorem versionGrows_trans (a b c : Version) (hab : versionGrows a b)
    (hbc : versionGrows b c) : versionGrows a c := by
  obtain ⟨h1, h2, h3, h4, h5, h6, h7, ⟨app1, h8⟩, app2, h9⟩ := hab
  obtain ⟨g1, g2, g3, g4, g5, g6, g7, ⟨bpp1, g8⟩, bpp2, g9⟩ := hbc
  exact ⟨g1.trans h1, g2.trans h2, g3.trans h3, g4.trans h4, g5.trans h5,
    g6.trans h6, g7.trans h7,
    ⟨app1 ++ bpp1, by rw [g8, h8, List.append_assoc]⟩,
    app2 ++ bpp2, by rw [g9, h9, List.append_assoc]⟩

theorem storeGrows_refl (st : Store) : storeGrows st st :=
  ⟨listGrows_refl _ versionGrows_refl _, listGrows_refl _ buildGrows_refl _,
    listGrows_refl _ (fun _ => rfl) _⟩

theorem storeGrows_trans {st1 st2 st3 : Store} (h12 : storeGrows st1 st2)
    (h23 : storeGrows st2 st3) : storeGrows st1 st3 :=
  ⟨listGrows_trans _ versionGrows_trans h12.1 h23.1,
    listGrows_trans _ buildGrows_trans h12.2.1 h23.2.1,
    listGrows_trans _ (fun _ _ _ ha hb => ha.trans hb) h12.2.2 h23.2.2⟩

theorem insertBuild_grows (st : Store) (b : Build) :
    storeGrows st (st.insertBuild b) :=
  ⟨listGrows_refl _ versionGrows_refl _,
    listGrows_append _ buildGrows_refl _ _,
    listGrows_refl _ (fun _ => rfl) _⟩

theorem insertTasks_grows (st : Store) (ts : List Task) :
    storeGrows st (st.insertTasks ts) :=
  ⟨listGrows_refl _ versionGrows_refl _,
    listGrows_refl _ buildGrows_refl _,
    listGrows_append _ (fun _ => rfl) _ _⟩

theorem insertVersion_grows (st : Store) (v : Version) :
    storeGrows st (st.insertVersion v) :=
  ⟨listGrows_append _ versionGrows_refl _ _,
    listGrows_refl _ buildGrows_refl _,
    listGrows_refl _ (fun _ => rfl) _⟩

theorem pushTasksToBuild_grows (st : Store) (bid : String)
    (tids : List String) : storeGrows st (st.pushTasksToBuild bid tids) := by
  refine ⟨listGrows_refl _ versionGrows_refl _, ?_,
    listGrows_refl _ (fun _ => rfl) _⟩
  apply listGrows_map
  intro b
  by_cases h : b.id == bid
  · simp only [h, if_true]
    exact ⟨rfl, rfl, rfl, rfl, tids, rfl⟩
  · simp only [h, Bool.false_eq_true, if_false]
    exact buildGrows_refl b

theorem pushBuildsToVersion_grows (st : Store) (vid : String)
    (bids : List String) (bss : List BuildStatus) :
    storeGrows st (st.pushBuildsToVersion vid bids bss) := by
  refine ⟨?_, listGrows_refl _ buildGrows_refl _,
    listGrows_refl _ (fun _ => rfl) _⟩
  apply listGrows_map
  intro v
  by_cases h : v.id == vid
  · simp only [h, if_true]
    exact ⟨rfl, rfl, rfl, rfl, rfl, rfl, rfl, ⟨bids, rfl⟩, bss, rfl⟩
  · simp only [h, Bool.false_eq_true, if_false]
    exact versionGrows_refl v

theorem CreateBuild_grows (project : Project) (v : Version) (tt : TaskIdTable)
    (bvName : String) (activ : Bool) (names : List String) (st : Store) :
    storeGrows st
      (CreateBuildFromVersion project v tt bvName activ names st).1 := by
  unfold CreateBuildFromVersion
  cases hfv : project.findVariant bvName with
  | none => exact storeGrows_refl st
  | some bv =>
    dsimp only
    by_cases hall : names.all (fun t => bv.taskNames.contains t) = true
    · rw [if_pos hall]
      cases hmks : mkTasks project v tt (buildIdFor v.id bvName) bvName
          activ names with
      | error e => exact storeGrows_refl st
      | ok ts =>
        dsimp only
        exact storeGrows_trans (insertBuild_grows st _) (insertTasks_grows _ ts)
    · rw [if_neg hall]
      exact storeGrows_refl st

theorem AddTasksToBuild_grows (b : Build) (project : Project) (v : Version)
    (tns : List String) (st : Store) :
    storeGrows st (AddTasksToBuild b project v tns st).1 := by
  unfold AddTasksToBuild
  cases hfv : project.findVariant b.buildVariant with
  | none => exact storeGrows_refl st
  | some bv =>
    dsimp only
    cases hmks : mkTasks project v
        (tableFor v.id (versionPairs st v.id ++
          (tns.filter (fun t => bv.taskNames.contains t)).map
            (fun t => TVPair.mk b.buildVariant t)))
        b.id b.buildVariant b.activated
        (tns.filter (fun t => bv.taskNames.contains t)) with
    | error e => exact storeGrows_refl st
    | ok ts =>
      dsimp only
      exact storeGrows_trans (pushTasksToBuild_grows st b.id _)
        (insertTasks_grows _ ts)

theorem addTasksLoop_grows (project : Project) (v : Version)
    (tns : List String) :
    ∀ (bs : List Build) (st : Store),
      storeGrows st (addTasksLoop project v tns bs st).1 := by
  intro bs
  induction bs with
  | nil => intro st; exact storeGrows_refl st
  | cons b rest ih =>
    intro st
    unfold addTasksLoop
    rcases hcb : AddTasksToBuild b project v tns st with ⟨st1, r⟩
    have h1 : storeGrows st st1 := by
      have := AddTasksToBuild_grows b project v tns st
      rw [hcb] at this
      exact this
    cases r with
    | error e => exact h1
    | ok b' => exact storeGrows_trans h1 (ih st1)

theorem AddNewTasksForPatch_grows (p : Patch) (v : Version)
    (project : Project) (tns : List String) (st : Store) :
    storeGrows st (AddNewTasksForPatch p v project tns st).2.1 := by
  unfold AddNewTasksForPatch
  by_cases h : (tns.filter (fun t => !(p.tasks.contains t))).length > 0
  · rw [if_pos h]
    exact addTasksLoop_grows project v _ _ st
  · rw [if_neg h]
    exact storeGrows_refl st

theorem addBuildsLoop_grows (project : Project) (tt : TaskIdTable)
    (activ : Bool) (tasks : List String) :
    ∀ (bvNames : List String) (pv : Version) (bids : List String)
      (bss : List BuildStatus) (st : Store),
      storeGrows st
        (addBuildsLoop project tt activ tasks bvNames pv bids bss st).1 := by
  intro bvNames
  induction bvNames with
  | nil => intro pv bids bss st; exact storeGrows_refl st
  | cons bvName rest ih =>
    intro pv bids bss st
    unfold addBuildsLoop
    rcases hcb : CreateBuildFromVersion project pv tt bvName activ tasks st
      with ⟨st1, r⟩
    have h1 : storeGrows st st1 := by
      have := CreateBuild_grows project pv tt bvName activ tasks st
      rw [hcb] at this
      exact this
    cases r with
    | error e => exact h1
    | ok buildId => exact storeGrows_trans h1 (ih _ _ _ st1)

theorem AddNewBuildsForPatch_grows (p : Patch) (v : Version)
    (project : Project) (bvs : List String) (st : Store) :
    storeGrows st (AddNewBuildsForPatch p v project bvs st).2.1 := by
  unfold AddNewBuildsForPatch
  dsimp only
  rcases haux : addBuildsLoop project
      (NewPatchTaskIdTable project v (p.AddBuildVariants bvs))
      (p.AddBuildVariants bvs).activated (p.AddBuildVariants bvs).tasks
      (bvs.filter (fun x => !(p.buildVariants.contains x))) v [] [] st
    with ⟨st1, r⟩
  have h1 : storeGrows st st1 := by
    have := addBuildsLoop_grows project
      (NewPatchTaskIdTable project v (p.AddBuildVariants bvs))
      (p.AddBuildVariants bvs).activated (p.AddBuildVariants bvs).tasks
      (bvs.filter (fun x => !(p.buildVariants.contains x))) v [] [] st
    rw [haux] at this
    exact this
  rcases r with e | ⟨pv, bids, bss⟩
  · exact h1
  · exact storeGrows_trans h1 (pushBuildsToVersion_grows st1 v.id bids bss)

/-- C7: Extend is additive-only.  Both extend operations only grow the
store: every Version, Build and Task document present before the call is
still present afterward at its original position — Versions keep their
identity with `BuildIds`/`BuildVariants` entries only appended, Builds keep
their identity with `TaskIds` only appended, and pre-existing Task records
(including their `DependsOn`) are entirely unchanged; new documents are
only appended.  This holds unconditionally, also for failing calls. -/
theorem c7_extend_additive_only (p : Patch) (v : Version) (project : Project)
    (tns bvs : List String) (st : Store) :
    storeGrows st (AddNewTasksForPatch p v project tns st).2.1 ∧
    storeGrows st (AddNewBuildsForPatch p v project bvs st).2.1 :=
  ⟨AddNewTasksForPatch_grows p v project tns st,
    AddNewBuildsForPatch_grows p v project bvs st⟩

end Evergreen
